import Mathlib

/-!
Verification of the spring-docs-scraper crawl engine
(`backend/src/async_queue.py` and `backend/src/async_http_client.py`).

The Python code is shallowly embedded: pure fragments become Lean
functions, the stateful worker loop becomes an explicit event-driven
state machine, and the standard-library pieces the code leans on
(`heapq` via `asyncio.PriorityQueue`, `urllib.parse.urlparse`) are
reproduced from their CPython reference implementations.
-/

namespace Scraper

/-! ## Priorities and queue items (`async_queue.py`, `Priority`, `QueueItem`) -/

/-- `Priority` enum: CRITICAL = 0, HIGH = 1, NORMAL = 2, LOW = 3. -/
inductive Priority where
  | critical
  | high
  | normal
  | low
deriving DecidableEq, Repr

/-- `Priority.value` as used by `add_url` / the worker when pushing. -/
def Priority.value : Priority → Nat
  | .critical => 0
  | .high => 1
  | .normal => 2
  | .low => 3

/-- `Priority.name`, used by `save_state`. -/
def Priority.pname : Priority → String
  | .critical => "CRITICAL"
  | .high => "HIGH"
  | .normal => "NORMAL"
  | .low => "LOW"

/-- `Priority[name]` lookup, used by `load_state`. -/
def Priority.ofName (s : String) : Option Priority :=
  if s = "CRITICAL" then some .critical
  else if s = "HIGH" then some .high
  else if s = "NORMAL" then some .normal
  else if s = "LOW" then some .low
  else none

/-- `QueueItem` dataclass.  `metadata` is modelled as an association list,
`created_at` as an abstract timestamp (a natural number). -/
structure QueueItem where
  url : String
  priority : Priority
  metadata : List (String × String)
  retry_count : Nat
  created_at : Nat
deriving DecidableEq, Repr

/-- `QueueItem.__lt__`: compares only the priority values. -/
def QueueItem.lt (a b : QueueItem) : Bool :=
  a.priority.value < b.priority.value

/-- An entry of `asyncio.PriorityQueue`'s backing heap: the tuple
`(item.priority.value, item)` pushed by `add_url` and the worker. -/
abbrev Entry : Type := Nat × QueueItem

/-- Python tuple `<` on `(int, QueueItem)` pairs as evaluated by `heapq`:
compare the integers; on equality (dataclass `__eq__` finding the items
different, or trivially when equal) fall back to `QueueItem.__lt__`.
When the items are fully equal the fallback also yields `false`, so this
single formula is the exact comparison. -/
def entryLt (a b : Entry) : Bool :=
  a.1 < b.1 || (a.1 == b.1 && QueueItem.lt a.2 b.2)

/-- Default entry used for total list indexing. -/
def dE : Entry :=
  (0, ⟨"", .normal, [], 0, 0⟩)

theorem entryLt_true_iff (a b : Entry) :
    entryLt a b = true ↔
      a.1 < b.1 ∨ (a.1 = b.1 ∧ a.2.priority.value < b.2.priority.value) := by
  simp [entryLt, QueueItem.lt]

theorem entryLt_false_iff (a b : Entry) :
    entryLt a b = false ↔
      b.1 < a.1 ∨ (a.1 = b.1 ∧ b.2.priority.value ≤ a.2.priority.value) := by
  rw [← Bool.not_eq_true, entryLt_true_iff]
  constructor
  · intro h
    omega
  · intro h
    omega

theorem entryLt_irrefl (a : Entry) : entryLt a a = false := by
  rw [entryLt_false_iff]
  omega

theorem entryLt_asymm {a b : Entry} (h : entryLt a b = true) :
    entryLt b a = false := by
  rw [entryLt_true_iff] at h
  rw [entryLt_false_iff]
  omega

theorem entryLt_le_trans {a b c : Entry} (hba : entryLt b a = false)
    (hcb : entryLt c b = false) : entryLt c a = false := by
  rw [entryLt_false_iff] at hba hcb ⊢
  omega

theorem entryLt_lt_le {a b c : Entry} (hab : entryLt a b = true)
    (hcb : entryLt c b = false) : entryLt c a = false := by
  rw [entryLt_true_iff] at hab
  rw [entryLt_false_iff] at hcb ⊢
  omega

/-! ## The CPython `heapq` algorithms

`asyncio.PriorityQueue._put` is `heapq.heappush` and `_get` is
`heapq.heappop` on a plain list.  The functions below transcribe
CPython's `_siftdown`, `_siftup`, `heappush`, `heappop`. -/

/-- Loop of CPython `heapq._siftdown(heap, startpos, pos)` with the moved
item `newitem` already read out: climb while `pos > startpos` and
`newitem < parent`, shifting parents down; finally store `newitem`. -/
def siftdownGo (heap : List Entry) (startpos pos : Nat) (newitem : Entry) :
    List Entry :=
  if _h : startpos < pos then
    if entryLt newitem (heap.getD ((pos - 1) / 2) dE) then
      siftdownGo (heap.set pos (heap.getD ((pos - 1) / 2) dE)) startpos
        ((pos - 1) / 2) newitem
    else
      heap.set pos newitem
  else
    heap.set pos newitem
termination_by pos
decreasing_by omega

/-- `heapq._siftdown(heap, startpos, pos)`. -/
def siftdown (heap : List Entry) (startpos pos : Nat) : List Entry :=
  siftdownGo heap startpos pos (heap.getD pos dE)

/-- Descent loop of CPython `heapq._siftup`: while the left child exists,
move the smaller child up into `pos` and descend; finally store
`newitem` at the leaf reached and report that position. -/
def siftupGo (heap : List Entry) (pos : Nat) (newitem : Entry) :
    List Entry × Nat :=
  if _h : 2 * pos + 1 < heap.length then
    if _h2 : 2 * pos + 2 < heap.length ∧
        entryLt (heap.getD (2 * pos + 1) dE) (heap.getD (2 * pos + 2) dE)
          = false then
      siftupGo (heap.set pos (heap.getD (2 * pos + 2) dE)) (2 * pos + 2)
        newitem
    else
      siftupGo (heap.set pos (heap.getD (2 * pos + 1) dE)) (2 * pos + 1)
        newitem
  else
    (heap.set pos newitem, pos)
termination_by heap.length - pos
decreasing_by
  all_goals simp only [List.length_set]
  · omega
  · omega

/-- `heapq._siftup(heap, pos)`: read `newitem := heap[pos]`, run the
descent loop, then `_siftdown(heap, pos, finalpos)`. -/
def siftup (heap : List Entry) (pos : Nat) : List Entry :=
  siftdown (siftupGo heap pos (heap.getD pos dE)).1 pos
    (siftupGo heap pos (heap.getD pos dE)).2

/-- `heapq.heappush(heap, item)`: append then sift down from the new
leaf towards the root. -/
def heappush (heap : List Entry) (item : Entry) : List Entry :=
  siftdown (heap ++ [item]) 0 heap.length

/-- `heapq.heappop(heap)`: pop the last element; on a non-empty
remainder, return the root, move the last element there and sift up.
Returns `none` on an empty heap (CPython raises `IndexError`). -/
def heappop (heap : List Entry) : Option (Entry × List Entry) :=
  if heap.isEmpty then none
  else if heap.dropLast.isEmpty then some (heap.getLast?.getD dE, [])
  else some (heap.dropLast.getD 0 dE,
    siftup (heap.dropLast.set 0 (heap.getLast?.getD dE)) 0)

/-- Push a batch of entries (left to right). -/
def pushAll (heap : List Entry) (items : List Entry) : List Entry :=
  items.foldl heappush heap

/-- Drain loop with explicit fuel. -/
def popAllFuel : Nat → List Entry → List Entry
  | 0, _ => []
  | fuel + 1, heap =>
    match heappop heap with
    | none => []
    | some (e, rest) => e :: popAllFuel fuel rest

/-- Pop every element of the heap, in pop order. -/
def popAll (heap : List Entry) : List Entry :=
  popAllFuel heap.length heap

/-! ## List indexing helpers -/

theorem getD_set_self {l : List Entry} {i : Nat} (v : Entry)
    (h : i < l.length) : (l.set i v).getD i dE = v := by
  rw [List.getD_eq_getElem _ _ (by simpa using h)]
  simp [List.getElem_set_self]

theorem getD_set_ne {l : List Entry} {i j : Nat} (v : Entry)
    (h : i ≠ j) : (l.set i v).getD j dE = l.getD j dE := by
  by_cases hj : j < l.length
  · rw [List.getD_eq_getElem _ _ (by simpa using hj),
      List.getD_eq_getElem _ _ hj]
    exact List.getElem_set_ne h _
  · rw [List.getD_eq_default _ _ (by simp; omega),
      List.getD_eq_default _ _ (by omega)]

/-- Multiset content of a point update: replacing index `i` exchanges
the old element for the new one. -/
theorem set_multiset {l : List Entry} {i : Nat} (v : Entry)
    (h : i < l.length) :
    (↑(l.set i v) : Multiset Entry) + {l.getD i dE} = ↑l + {v} := by
  induction l generalizing i with
  | nil => simp at h
  | cons a t ih =>
    cases i with
    | zero =>
      simp only [List.set_cons_zero, List.getD_cons_zero]
      change (v ::ₘ ↑t) + {a} = (a ::ₘ ↑t) + {v}
      rw [add_comm (v ::ₘ (↑t : Multiset Entry)) {a},
        add_comm (a ::ₘ (↑t : Multiset Entry)) {v}]
      simp only [Multiset.singleton_add, Multiset.cons_coe]
      exact Multiset.coe_eq_coe.mpr (List.Perm.swap v a t)
    | succ n =>
      simp only [List.set_cons_succ, List.getD_cons_succ]
      have := ih (i := n) (by simpa using Nat.lt_of_succ_lt_succ h)
      change (a ::ₘ ↑(t.set n v)) + {t.getD n dE} = (a ::ₘ ↑t) + {v}
      rw [Multiset.cons_add, Multiset.cons_add, this]

/-! ## Heap invariant and correctness of the sift operations -/

/-- Index of the parent of `i` (CPython `(pos - 1) >> 1`). -/
def parentIdx (i : Nat) : Nat := (i - 1) / 2

/-- The binary min-heap invariant kept by `heapq`: no child is strictly
smaller than its parent. -/
def HeapInv (l : List Entry) : Prop :=
  ∀ i, 0 < i → i < l.length →
    entryLt (l.getD i dE) (l.getD (parentIdx i) dE) = false

theorem heapInv_nil : HeapInv [] := by
  intro i _ hi
  simp at hi

/-- Under the heap invariant the root is a minimum. -/
theorem heapInv_root_le {l : List Entry} (hl : HeapInv l) :
    ∀ i, i < l.length → entryLt (l.getD i dE) (l.getD 0 dE) = false := by
  intro i
  induction i using Nat.strong_induction_on with
  | _ i ih =>
    intro hi
    rcases Nat.eq_zero_or_pos i with h0 | h0
    · subst h0
      exact entryLt_irrefl _
    · have hp : parentIdx i < i := by
        unfold parentIdx
        omega
      have h1 := hl i h0 hi
      have h2 := ih (parentIdx i) hp (by omega)
      exact entryLt_le_trans h2 h1

/-- Precondition of the `_siftdown` climb (with `startpos = 0`): the heap
property holds on every edge not touching the hole `pos`; the moved item
is no larger than the hole's children; and the hole's children are no
smaller than the hole's parent. -/
def SiftdownPre (h : List Entry) (pos : Nat) (x : Entry) : Prop :=
  pos < h.length ∧
  (∀ i, 0 < i → i < h.length → i ≠ pos → parentIdx i ≠ pos →
    entryLt (h.getD i dE) (h.getD (parentIdx i) dE) = false) ∧
  (∀ j, 0 < j → j < h.length → parentIdx j = pos →
    entryLt (h.getD j dE) x = false) ∧
  (∀ j, 0 < j → j < h.length → parentIdx j = pos → 0 < pos →
    entryLt (h.getD j dE) (h.getD (parentIdx pos) dE) = false)

theorem length_siftdownGo (h : List Entry) (s pos : Nat) (x : Entry) :
    (siftdownGo h s pos x).length = h.length := by
  induction pos using Nat.strong_induction_on generalizing h with
  | _ pos ih =>
    rw [siftdownGo]
    by_cases h0 : s < pos
    · rw [dif_pos h0]
      by_cases hlt : entryLt x (h.getD ((pos - 1) / 2) dE)
      · rw [if_pos hlt, ih _ (by omega)]
        simp
      · rw [if_neg hlt]
        simp
    · rw [dif_neg h0]
      simp

theorem siftdownGo_inv {h : List Entry} {pos : Nat} {x : Entry}
    (pre : SiftdownPre h pos x) : HeapInv (siftdownGo h 0 pos x) := by
  induction pos using Nat.strong_induction_on generalizing h with
  | _ pos ih =>
    obtain ⟨hpos, hI1, hI2, hI2c⟩ := pre
    rw [siftdownGo]
    by_cases h0 : 0 < pos
    · rw [dif_pos h0]
      by_cases hlt : entryLt x (h.getD ((pos - 1) / 2) dE)
      · rw [if_pos hlt]
        -- climb: the hole moves to the parent position
        apply ih ((pos - 1) / 2) (by omega)
        have hppne : (pos - 1) / 2 ≠ pos := by omega
        refine ⟨by simp; omega, ?_, ?_, ?_⟩
        · -- edges not touching the new hole
          intro i hi0 hilen hine hipne
          rw [List.length_set] at hilen
          have hpi : parentIdx i = (i - 1) / 2 := rfl
          by_cases hie : i = pos
          · -- the edge into the old hole now has parent = child value
            exfalso
            apply hipne
            unfold parentIdx
            omega
          · by_cases hpie : parentIdx i = pos
            · -- children of the old hole, now pointing at the parent value
              rw [getD_set_ne _ (by omega), hpie, getD_set_self _ hpos]
              have := hI2c i hi0 hilen hpie h0
              unfold parentIdx at this
              exact this
            · rw [getD_set_ne _ (by omega), getD_set_ne _ (by omega)]
              exact hI1 i hi0 hilen hie hpie
        · -- the moved item is ≤ the new hole's children
          intro j hj0 hjlen hpj
          rw [List.length_set] at hjlen
          by_cases hje : j = pos
          · subst hje
            rw [getD_set_self _ hpos]
            exact entryLt_asymm hlt
          · rw [getD_set_ne _ (by omega)]
            have hj1 : entryLt (h.getD j dE) (h.getD ((pos - 1) / 2) dE)
                = false := by
              have := hI1 j hj0 hjlen hje (by rw [hpj]; omega)
              rwa [hpj] at this
            exact entryLt_lt_le hlt hj1
        · -- the new hole's children are ≥ the new hole's parent
          intro k hk0 hklen hpk hpp0
          rw [List.length_set] at hklen
          have hgpne : parentIdx ((pos - 1) / 2) ≠ pos := by
            unfold parentIdx
            omega
          have hedge : entryLt (h.getD ((pos - 1) / 2) dE)
              (h.getD (parentIdx ((pos - 1) / 2)) dE) = false :=
            hI1 ((pos - 1) / 2) hpp0 (by omega) hppne hgpne
          have hgpval : (h.set pos (h.getD ((pos - 1) / 2) dE)).getD
              (parentIdx ((pos - 1) / 2)) dE
              = h.getD (parentIdx ((pos - 1) / 2)) dE :=
            getD_set_ne _ (Ne.symm hgpne)
          rw [hgpval]
          by_cases hke : k = pos
          · subst hke
            rw [getD_set_self _ hpos]
            exact hedge
          · rw [getD_set_ne _ (Ne.symm hke)]
            have hk1 : entryLt (h.getD k dE) (h.getD ((pos - 1) / 2) dE)
                = false := by
              have := hI1 k hk0 hklen hke (by rw [hpk]; omega)
              rwa [hpk] at this
            exact entryLt_le_trans hedge hk1
      · rw [if_neg hlt]
        -- settle here: writing x at pos restores the heap property
        intro i hi0 hilen
        rw [List.length_set] at hilen
        by_cases hie : i = pos
        · subst hie
          rw [getD_set_self _ hpos, getD_set_ne _ (by unfold parentIdx; omega)]
          exact Bool.not_eq_true _ ▸ hlt
        · by_cases hpie : parentIdx i = pos
          · rw [getD_set_ne _ (by omega), hpie, getD_set_self _ hpos]
            exact hI2 i hi0 hilen hpie
          · rw [getD_set_ne _ (by omega), getD_set_ne _ (by omega)]
            exact hI1 i hi0 hilen hie hpie
    · rw [dif_neg h0]
      have hp0 : pos = 0 := by omega
      subst hp0
      intro i hi0 hilen
      rw [List.length_set] at hilen
      by_cases hpie : parentIdx i = 0
      · rw [getD_set_ne _ (by omega), hpie, getD_set_self _ hpos]
        exact hI2 i hi0 hilen hpie
      · rw [getD_set_ne _ (by omega), getD_set_ne _ (by omega)]
        exact hI1 i hi0 hilen (by omega) hpie

theorem siftdownGo_multiset {h : List Entry} {pos : Nat} {x : Entry}
    (hpos : pos < h.length) :
    (↑(siftdownGo h 0 pos x) : Multiset Entry) + {h.getD pos dE}
      = ↑h + {x} := by
  induction pos using Nat.strong_induction_on generalizing h with
  | _ pos ih =>
    rw [siftdownGo]
    by_cases h0 : 0 < pos
    · rw [dif_pos h0]
      by_cases hlt : entryLt x (h.getD ((pos - 1) / 2) dE)
      · rw [if_pos hlt]
        have hpp : (pos - 1) / 2 < pos := by omega
        have hlen : (pos - 1) / 2 < (h.set pos (h.getD ((pos - 1) / 2) dE)).length := by
          simp
          omega
        have hrec := ih ((pos - 1) / 2) hpp hlen
        rw [getD_set_ne _ (by omega)] at hrec
        have hset := set_multiset (l := h) (i := pos)
          (h.getD ((pos - 1) / 2) dE) hpos
        have := congrArg (· + ({h.getD pos dE} : Multiset Entry)) hrec
        simp only at this
        rw [show (↑(h.set pos (h.getD ((pos - 1) / 2) dE)) : Multiset Entry)
            + {x} + {h.getD pos dE}
            = ↑(h.set pos (h.getD ((pos - 1) / 2) dE)) + {h.getD pos dE}
              + {x} by abel] at this
        rw [hset] at this
        have goal := this
        rw [show (↑(siftdownGo (h.set pos (h.getD ((pos - 1) / 2) dE)) 0
            ((pos - 1) / 2) x) : Multiset Entry)
            + {h.getD ((pos - 1) / 2) dE} + {h.getD pos dE}
            = ↑(siftdownGo (h.set pos (h.getD ((pos - 1) / 2) dE)) 0
              ((pos - 1) / 2) x) + {h.getD pos dE}
              + {h.getD ((pos - 1) / 2) dE} by abel,
          show (↑h : Multiset Entry) + {h.getD ((pos - 1) / 2) dE} + {x}
            = ↑h + {x} + {h.getD ((pos - 1) / 2) dE} by abel] at goal
        exact add_right_cancel goal
      · rw [if_neg hlt]
        exact set_multiset x hpos
    · rw [dif_neg h0]
      exact set_multiset x hpos

/-- Precondition of the `_siftup` descent: the heap property holds on
every edge not touching the hole, and the hole's children are no
smaller than the hole's parent. -/
def SiftupPre (h : List Entry) (pos : Nat) : Prop :=
  pos < h.length ∧
  (∀ i, 0 < i → i < h.length → i ≠ pos → parentIdx i ≠ pos →
    entryLt (h.getD i dE) (h.getD (parentIdx i) dE) = false) ∧
  (∀ j, 0 < j → j < h.length → parentIdx j = pos → 0 < pos →
    entryLt (h.getD j dE) (h.getD (parentIdx pos) dE) = false)

theorem siftupGo_spec :
    ∀ (n : Nat) (h : List Entry) (pos : Nat) (x : Entry),
      h.length - pos ≤ n → pos < h.length →
      (siftupGo h pos x).1.length = h.length ∧
      (siftupGo h pos x).2 < h.length ∧
      pos ≤ (siftupGo h pos x).2 ∧
      (siftupGo h pos x).1.getD (siftupGo h pos x).2 dE = x ∧
      (↑(siftupGo h pos x).1 : Multiset Entry) + {h.getD pos dE}
        = ↑h + {x} := by
  intro n
  induction n with
  | zero =>
    intro h pos x hn hpos
    omega
  | succ n ihn =>
    intro h pos x hn hpos
    rw [siftupGo]
    by_cases hc : 2 * pos + 1 < h.length
    · rw [dif_pos hc]
      by_cases hr : 2 * pos + 2 < h.length ∧
          entryLt (h.getD (2 * pos + 1) dE) (h.getD (2 * pos + 2) dE)
            = false
      · rw [dif_pos hr]
        have hlen2 : (h.set pos (h.getD (2 * pos + 2) dE)).length
            = h.length := by simp
        have hrec := ihn (h.set pos (h.getD (2 * pos + 2) dE))
          (2 * pos + 2) x (by rw [hlen2]; omega) (by rw [hlen2]; omega)
        obtain ⟨hl, hfp, hle, hval, hmul⟩ := hrec
        rw [hlen2] at hl hfp
        refine ⟨hl, hfp, by omega, hval, ?_⟩
        rw [getD_set_ne _ (by omega)] at hmul
        have hset := set_multiset (l := h) (i := pos)
          (h.getD (2 * pos + 2) dE) hpos
        have goal := congrArg (· + ({h.getD pos dE} : Multiset Entry)) hmul
        simp only at goal
        rw [show (↑(h.set pos (h.getD (2 * pos + 2) dE)) : Multiset Entry)
            + {x} + {h.getD pos dE}
            = ↑(h.set pos (h.getD (2 * pos + 2) dE)) + {h.getD pos dE}
              + {x} by abel, hset,
          show (↑(siftupGo (h.set pos (h.getD (2 * pos + 2) dE))
              (2 * pos + 2) x).1 : Multiset Entry)
            + {h.getD (2 * pos + 2) dE} + {h.getD pos dE}
            = ↑(siftupGo (h.set pos (h.getD (2 * pos + 2) dE))
              (2 * pos + 2) x).1 + {h.getD pos dE}
              + {h.getD (2 * pos + 2) dE} by abel,
          show (↑h : Multiset Entry) + {h.getD (2 * pos + 2) dE} + {x}
            = ↑h + {x} + {h.getD (2 * pos + 2) dE} by abel] at goal
        exact add_right_cancel goal
      · rw [dif_neg hr]
        have hlen2 : (h.set pos (h.getD (2 * pos + 1) dE)).length
            = h.length := by simp
        have hrec := ihn (h.set pos (h.getD (2 * pos + 1) dE))
          (2 * pos + 1) x (by rw [hlen2]; omega) (by rw [hlen2]; omega)
        obtain ⟨hl, hfp, hle, hval, hmul⟩ := hrec
        rw [hlen2] at hl hfp
        refine ⟨hl, hfp, by omega, hval, ?_⟩
        rw [getD_set_ne _ (by omega)] at hmul
        have hset := set_multiset (l := h) (i := pos)
          (h.getD (2 * pos + 1) dE) hpos
        have goal := congrArg (· + ({h.getD pos dE} : Multiset Entry)) hmul
        simp only at goal
        rw [show (↑(h.set pos (h.getD (2 * pos + 1) dE)) : Multiset Entry)
            + {x} + {h.getD pos dE}
            = ↑(h.set pos (h.getD (2 * pos + 1) dE)) + {h.getD pos dE}
              + {x} by abel, hset,
          show (↑(siftupGo (h.set pos (h.getD (2 * pos + 1) dE))
              (2 * pos + 1) x).1 : Multiset Entry)
            + {h.getD (2 * pos + 1) dE} + {h.getD pos dE}
            = ↑(siftupGo (h.set pos (h.getD (2 * pos + 1) dE))
              (2 * pos + 1) x).1 + {h.getD pos dE}
              + {h.getD (2 * pos + 1) dE} by abel,
          show (↑h : Multiset Entry) + {h.getD (2 * pos + 1) dE} + {x}
            = ↑h + {x} + {h.getD (2 * pos + 1) dE} by abel] at goal
        exact add_right_cancel goal
    · rw [dif_neg hc]
      refine ⟨by simp, hpos, le_refl _, getD_set_self _ hpos, ?_⟩
      exact set_multiset x hpos

theorem siftupGo_pre :
    ∀ (n : Nat) (h : List Entry) (pos : Nat) (x : Entry),
      h.length - pos ≤ n → SiftupPre h pos →
      SiftdownPre (siftupGo h pos x).1 (siftupGo h pos x).2 x := by
  intro n
  induction n with
  | zero =>
    intro h pos x hn pre
    have := pre.1
    omega
  | succ n ihn =>
    intro h pos x hn pre
    obtain ⟨hpos, hK1, hK2⟩ := pre
    rw [siftupGo]
    by_cases hc : 2 * pos + 1 < h.length
    · rw [dif_pos hc]
      by_cases hr : 2 * pos + 2 < h.length ∧
          entryLt (h.getD (2 * pos + 1) dE) (h.getD (2 * pos + 2) dE)
            = false
      · rw [dif_pos hr]
        -- the right child moves up; the hole descends to 2*pos+2
        apply ihn (h.set pos (h.getD (2 * pos + 2) dE)) (2 * pos + 2) x
          (by simp; omega)
        refine ⟨by simp; omega, ?_, ?_⟩
        · intro i hi0 hilen hine hipne
          rw [List.length_set] at hilen
          by_cases hie : i = pos
          · rw [hie, getD_set_self _ hpos,
              getD_set_ne _ (by unfold parentIdx; omega)]
            exact hK2 (2 * pos + 2) (by omega) (by omega)
              (by unfold parentIdx; omega) (by omega)
          · by_cases hpie : parentIdx i = pos
            · have hileft : i = 2 * pos + 1 := by
                unfold parentIdx at hpie hipne
                omega
              subst hileft
              rw [getD_set_ne _ (by omega), hpie, getD_set_self _ hpos]
              exact hr.2
            · rw [getD_set_ne _ (by omega), getD_set_ne _ (by omega)]
              exact hK1 i hi0 hilen hie hpie
        · intro j hj0 hjlen hpj hc0
          rw [List.length_set] at hjlen
          have hjgt : 2 * pos + 2 < j := by
            unfold parentIdx at hpj
            omega
          have hpc : parentIdx (2 * pos + 2) = pos := by
            unfold parentIdx
            omega
          rw [getD_set_ne _ (by omega), hpc, getD_set_self _ hpos]
          have := hK1 j hj0 hjlen (by omega)
            (by rw [hpj]; unfold parentIdx at *; omega)
          rwa [hpj] at this
      · rw [dif_neg hr]
        -- the left child moves up; the hole descends to 2*pos+1
        apply ihn (h.set pos (h.getD (2 * pos + 1) dE)) (2 * pos + 1) x
          (by simp; omega)
        refine ⟨by simp; omega, ?_, ?_⟩
        · intro i hi0 hilen hine hipne
          rw [List.length_set] at hilen
          by_cases hie : i = pos
          · rw [hie, getD_set_self _ hpos,
              getD_set_ne _ (by unfold parentIdx; omega)]
            exact hK2 (2 * pos + 1) (by omega) (by omega)
              (by unfold parentIdx; omega) (by omega)
          · by_cases hpie : parentIdx i = pos
            · have hiright : i = 2 * pos + 2 := by
                unfold parentIdx at hpie hipne
                omega
              subst hiright
              rw [getD_set_ne _ (by omega), hpie, getD_set_self _ hpos]
              have hrt : entryLt (h.getD (2 * pos + 1) dE)
                  (h.getD (2 * pos + 2) dE) = true := by
                rcases Bool.eq_false_or_eq_true (entryLt (h.getD (2 * pos + 1) dE)
                  (h.getD (2 * pos + 2) dE)) with ht | hf
                · exact ht
                · exact absurd ⟨hilen, hf⟩ hr
              exact entryLt_asymm hrt
            · rw [getD_set_ne _ (by omega), getD_set_ne _ (by omega)]
              exact hK1 i hi0 hilen hie hpie
        · intro j hj0 hjlen hpj hc0
          rw [List.length_set] at hjlen
          have hjgt : 2 * pos + 1 < j := by
            unfold parentIdx at hpj
            omega
          have hpc : parentIdx (2 * pos + 1) = pos := by
            unfold parentIdx
            omega
          rw [getD_set_ne _ (by omega), hpc, getD_set_self _ hpos]
          have := hK1 j hj0 hjlen (by omega)
            (by rw [hpj]; unfold parentIdx at *; omega)
          rwa [hpj] at this
    · rw [dif_neg hc]
      refine ⟨by simp; omega, ?_, ?_, ?_⟩
      · intro i hi0 hilen hine hipne
        rw [List.length_set] at hilen
        rw [getD_set_ne _ (by omega), getD_set_ne _ (by omega)]
        exact hK1 i hi0 hilen hine hipne
      · intro j hj0 hjlen hpj
        rw [List.length_set] at hjlen
        unfold parentIdx at hpj
        omega
      · intro j hj0 hjlen hpj hp0
        rw [List.length_set] at hjlen
        unfold parentIdx at hpj
        omega

/-! ## Specifications of `heappush` and `heappop` -/

theorem getD_append_last (l : List Entry) (e : Entry) :
    (l ++ [e]).getD l.length dE = e := by
  rw [List.getD_append_right _ _ _ _ (le_refl _)]
  simp

theorem heappush_inv {l : List Entry} {e : Entry} (hl : HeapInv l) :
    HeapInv (heappush l e) := by
  unfold heappush siftdown
  rw [getD_append_last]
  apply siftdownGo_inv
  refine ⟨by simp, ?_, ?_, ?_⟩
  · intro i hi0 hilen hine hipne
    rw [List.length_append, List.length_singleton] at hilen
    have hil : i < l.length := by omega
    have hpil : parentIdx i < l.length := by
      unfold parentIdx
      omega
    rw [List.getD_append _ _ _ _ hil, List.getD_append _ _ _ _ hpil]
    exact hl i hi0 hil
  · intro j hj0 hjlen hpj
    rw [List.length_append, List.length_singleton] at hjlen
    unfold parentIdx at hpj
    omega
  · intro j hj0 hjlen hpj hp0
    rw [List.length_append, List.length_singleton] at hjlen
    unfold parentIdx at hpj
    omega

theorem heappush_multiset (l : List Entry) (e : Entry) :
    (↑(heappush l e) : Multiset Entry) = ↑l + {e} := by
  unfold heappush siftdown
  rw [getD_append_last]
  have h1 := @siftdownGo_multiset (l ++ [e]) l.length e (by simp)
  rw [getD_append_last] at h1
  have h2 : (↑(l ++ [e]) : Multiset Entry) = ↑l + {e} := by
    rw [← Multiset.coe_singleton e, Multiset.coe_add]
  rw [h2] at h1
  exact add_right_cancel h1

theorem length_heappush (l : List Entry) (e : Entry) :
    (heappush l e).length = l.length + 1 := by
  unfold heappush siftdown
  rw [length_siftdownGo]
  simp

theorem siftup0_spec {H : List Entry} (h0 : 0 < H.length) :
    (siftup H 0).length = H.length ∧
    ((↑(siftup H 0) : Multiset Entry) = ↑H) ∧
    (SiftupPre H 0 → HeapInv (siftup H 0)) := by
  unfold siftup siftdown
  obtain ⟨hl, hfp, _, hval, hmul⟩ :=
    siftupGo_spec H.length H 0 (H.getD 0 dE) (by omega) h0
  rw [hval]
  have hfp1 : (siftupGo H 0 (H.getD 0 dE)).2
      < (siftupGo H 0 (H.getD 0 dE)).1.length := by
    rw [hl]
    exact hfp
  have hmul2 := @siftdownGo_multiset (siftupGo H 0 (H.getD 0 dE)).1
    (siftupGo H 0 (H.getD 0 dE)).2 (H.getD 0 dE) hfp1
  rw [hval] at hmul2
  have hres : (↑(siftdownGo (siftupGo H 0 (H.getD 0 dE)).1 0
      (siftupGo H 0 (H.getD 0 dE)).2 (H.getD 0 dE)) : Multiset Entry)
      = ↑(siftupGo H 0 (H.getD 0 dE)).1 :=
    add_right_cancel hmul2
  refine ⟨?_, ?_, ?_⟩
  · rw [length_siftdownGo, hl]
  · rw [hres]
    exact add_right_cancel hmul
  · intro pre
    have hpre := siftupGo_pre H.length H 0 (H.getD 0 dE) (by omega) pre
    rw [← hval] at hpre ⊢
    exact siftdownGo_inv hpre

theorem heappop_eq_none_iff {h : List Entry} :
    heappop h = none ↔ h = [] := by
  unfold heappop
  rcases h with _ | ⟨a, t⟩
  · simp
  · rw [if_neg (by simp)]
    constructor
    · intro hc
      split at hc <;> simp at hc
    · intro hc
      exact absurd hc (List.cons_ne_nil a t)

theorem heappop_some {h : List Entry} (hne : h ≠ []) :
    ∃ rest, heappop h = some (h.getD 0 dE, rest) ∧
      rest.length + 1 = h.length ∧
      ((↑rest : Multiset Entry) + {h.getD 0 dE} = ↑h) ∧
      (HeapInv h → HeapInv rest) := by
  unfold heappop
  rw [if_neg (by simpa [List.isEmpty_iff] using hne)]
  by_cases hdl : h.dropLast.isEmpty
  · -- singleton heap
    rw [if_pos hdl]
    have hlen1 : h.length = 1 := by
      have := List.length_dropLast h
      rw [List.isEmpty_iff, ← List.length_eq_zero] at hdl
      have hpos : 0 < h.length := List.length_pos.mpr hne
      omega
    obtain ⟨a, ha⟩ := List.length_eq_one.mp hlen1
    subst ha
    refine ⟨[], rfl, rfl, ?_, fun _ => heapInv_nil⟩
    show (0 : Multiset Entry) + {[a].getD 0 dE} = ↑[a]
    rw [List.getD_cons_zero, zero_add, Multiset.coe_singleton]
  · rw [if_neg hdl]
    rw [List.isEmpty_iff] at hdl
    have hlen2 : 2 ≤ h.length := by
      have h1 := List.length_dropLast h
      have h2 : 0 < h.dropLast.length := List.length_pos.mpr hdl
      omega
    have hd0 : h.dropLast.getD 0 dE = h.getD 0 dE := by
      rw [List.getD_eq_getElem _ _ (by
          rw [List.length_dropLast]
          omega),
        List.getD_eq_getElem _ _ (by omega)]
      exact List.getElem_dropLast h 0 _
    have hlast : h.getLast?.getD dE = h.getLast hne := by
      rw [List.getLast?_eq_getLast_of_ne_nil hne]
      rfl
    have hH0 : 0 < (h.dropLast.set 0 (h.getLast?.getD dE)).length := by
      rw [List.length_set, List.length_dropLast]
      omega
    obtain ⟨hslen, hsmul, hsinv⟩ := siftup0_spec hH0
    refine ⟨siftup (h.dropLast.set 0 (h.getLast?.getD dE)) 0, by rw [hd0],
      ?_, ?_, ?_⟩
    · rw [hslen, List.length_set, List.length_dropLast]
      omega
    · rw [hsmul]
      have hset := set_multiset (l := h.dropLast) (i := 0)
        (h.getLast?.getD dE) (by rw [List.length_dropLast]; omega)
      rw [hd0] at hset
      have hsplit : (↑h.dropLast : Multiset Entry) + {h.getLast?.getD dE}
          = ↑h := by
        rw [hlast]
        have := List.dropLast_append_getLast hne
        calc (↑h.dropLast : Multiset Entry) + {h.getLast hne}
            = ↑(h.dropLast ++ [h.getLast hne]) := by
              rw [← Multiset.coe_singleton (h.getLast hne), Multiset.coe_add]
          _ = ↑h := by rw [this]
      rw [hset, hsplit]
    · intro hinv
      apply hsinv
      refine ⟨hH0, ?_, ?_⟩
      · intro i hi0 hilen hine hipne
        rw [List.length_set, List.length_dropLast] at hilen
        have hpil : parentIdx i < i := by
          unfold parentIdx
          omega
        rw [getD_set_ne _ (by omega), getD_set_ne _ (by omega)]
        have hgi : h.dropLast.getD i dE = h.getD i dE := by
          rw [List.getD_eq_getElem _ _ (by
              rw [List.length_dropLast]
              omega),
            List.getD_eq_getElem _ _ (by omega)]
          exact List.getElem_dropLast h i _
        have hgp : h.dropLast.getD (parentIdx i) dE
            = h.getD (parentIdx i) dE := by
          rw [List.getD_eq_getElem _ _ (by
              rw [List.length_dropLast]
              omega),
            List.getD_eq_getElem _ _ (by omega)]
          exact List.getElem_dropLast h (parentIdx i) _
        rw [hgi, hgp]
        exact hinv i hi0 (by omega)
      · intro j hj0 hjlen hpj hp0
        omega

/-! ## Draining and filling the heap -/

theorem popAllFuel_spec :
    ∀ (fuel : Nat) (h : List Entry), h.length ≤ fuel →
      ((↑(popAllFuel fuel h) : Multiset Entry) = ↑h) ∧
      (HeapInv h →
        List.Pairwise (fun a b => entryLt b a = false)
          (popAllFuel fuel h)) := by
  intro fuel
  induction fuel with
  | zero =>
    intro h hlen
    have : h = [] := List.eq_nil_of_length_eq_zero (by omega)
    subst this
    exact ⟨rfl, fun _ => List.Pairwise.nil⟩
  | succ fuel ih =>
    intro h hlen
    by_cases hne : h = []
    · subst hne
      have hpop : heappop ([] : List Entry) = none :=
        heappop_eq_none_iff.mpr rfl
      simp only [popAllFuel, hpop]
      exact ⟨trivial, fun _ => List.Pairwise.nil⟩
    · obtain ⟨rest, hpop, hrlen, hmul, hinv⟩ := heappop_some hne
      simp only [popAllFuel, hpop]
      obtain ⟨ihmul, ihpw⟩ := ih rest (by omega)
      constructor
      · rw [← Multiset.cons_coe, ← Multiset.singleton_add, ihmul,
          add_comm]
        exact hmul
      · intro hInvH
        rw [List.pairwise_cons]
        constructor
        · intro b hb
          have hbrest : b ∈ rest := by
            rw [← Multiset.mem_coe, ← ihmul, Multiset.mem_coe]
            exact hb
          have hbh : b ∈ h := by
            rw [← Multiset.mem_coe, ← hmul]
            exact Multiset.mem_add.mpr (Or.inl (Multiset.mem_coe.mpr hbrest))
          obtain ⟨i, hi, hbi⟩ := List.mem_iff_getElem.mp hbh
          have : h.getD i dE = b := by
            rw [List.getD_eq_getElem _ _ hi]
            exact hbi
          rw [← this]
          exact heapInv_root_le hInvH i hi
        · exact ihpw (hinv hInvH)

theorem popAll_multiset (h : List Entry) :
    (↑(popAll h) : Multiset Entry) = ↑h :=
  (popAllFuel_spec h.length h (le_refl _)).1

theorem popAll_sorted {h : List Entry} (hinv : HeapInv h) :
    List.Pairwise (fun a b => entryLt b a = false) (popAll h) :=
  (popAllFuel_spec h.length h (le_refl _)).2 hinv

theorem pushAll_spec :
    ∀ (items acc : List Entry), HeapInv acc →
      HeapInv (pushAll acc items) ∧
      (↑(pushAll acc items) : Multiset Entry) = ↑acc + ↑items := by
  intro items
  induction items with
  | nil =>
    intro acc hacc
    refine ⟨hacc, ?_⟩
    show (↑acc : Multiset Entry) = ↑acc + ↑([] : List Entry)
    rw [Multiset.coe_nil, add_zero]
  | cons e t ih =>
    intro acc hacc
    have hstep : pushAll acc (e :: t) = pushAll (heappush acc e) t := rfl
    rw [hstep]
    obtain ⟨ihinv, ihmul⟩ := ih (heappush acc e) (heappush_inv hacc)
    refine ⟨ihinv, ?_⟩
    rw [ihmul, heappush_multiset, ← Multiset.cons_coe,
      ← Multiset.singleton_add, add_assoc]

/-! ## `urllib.parse.urlparse` and `URLQueue._normalize_url`

The queue normalizes URLs with CPython's `urlparse` (transcribed below
for URLs without bracketed IPv6 hosts, whose validity checks raise and
are irrelevant here) followed by string formatting and `rstrip('/')`.
Strings are processed as character lists. -/

/-- `str.find(c)`: index of the first occurrence, if any. -/
def findChar (s : List Char) (c : Char) : Option Nat :=
  match s with
  | [] => none
  | a :: t => if a = c then some 0 else (findChar t c).map (· + 1)

/-- `str.split(c, 1)`: text before the first occurrence of `c`, and the
remainder after it when `c` occurs. -/
def splitOnceAt (s : List Char) (c : Char) : List Char × Option (List Char) :=
  match s with
  | [] => ([], none)
  | a :: t =>
    if a = c then ([], some t)
    else
      match splitOnceAt t c with
      | (pre, rest) => (a :: pre, rest)

/-- Decompose at the last `'/'`: `some (pre, suf)` with the original
list equal to `pre ++ suf` and `suf` beginning at the last slash. -/
def splitAtLastSlash (s : List Char) : Option (List Char × List Char) :=
  match s with
  | [] => none
  | a :: t =>
    match splitAtLastSlash t with
    | some (pre, suf) => some (a :: pre, suf)
    | none => if a = '/' then some ([], a :: t) else none

/-- Characters CPython's `urlsplit` treats as valid inside a scheme. -/
def isSchemeChar (c : Char) : Bool :=
  c.isAlphanum || c = '+' || c = '-' || c = '.'

/-- A netloc ends at the first `'/'`, `'?'` or `'#'` (`_splitnetloc`). -/
def isNetlocDelim (c : Char) : Bool :=
  c = '/' || c = '?' || c = '#'

/-- The C0-control-or-space set `urlsplit` lstrips from the URL. -/
def isC0OrSpace (c : Char) : Bool :=
  c.toNat ≤ 32

/-- The bytes `urlsplit` deletes anywhere in the URL. -/
def isUnsafeChar (c : Char) : Bool :=
  c = '\t' || c = '\r' || c = '\n'

/-- Result of `urllib.parse.urlparse`. -/
structure ParseResult where
  scheme : List Char
  netloc : List Char
  path : List Char
  params : List Char
  query : List Char
  fragment : List Char
deriving DecidableEq, Repr

/-- Sanitization at the top of `urlsplit`: lstrip C0-control-or-space,
then delete tab, CR and LF everywhere. -/
def sanitize (url0 : List Char) : List Char :=
  (url0.dropWhile isC0OrSpace).filter (fun c => !isUnsafeChar c)

/-- Scheme recognition of `urlsplit`: split at the first `':'` when the
text before it is a valid non-empty scheme beginning with a letter. -/
def schemeSplit (u : List Char) : List Char × List Char :=
  match findChar u ':' with
  | some i =>
    if 0 < i ∧ (u.headD ' ').isAlpha ∧ (u.take i).all isSchemeChar
    then ((u.take i).map Char.toLower, u.drop (i + 1))
    else ([], u)
  | none => ([], u)

/-- `_splitnetloc`: after a leading `"//"`, the netloc extends to the
first `'/'`, `'?'` or `'#'`. -/
def netlocSplit (u : List Char) : List Char × List Char :=
  if u.take 2 = ['/', '/'] then
    ((u.drop 2).takeWhile (fun c => !isNetlocDelim c),
     (u.drop 2).dropWhile (fun c => !isNetlocDelim c))
  else ([], u)

/-- `url.split('#', 1)` when a `'#'` occurs, else no fragment. -/
def fragSplit (u : List Char) : List Char × List Char :=
  match splitOnceAt u '#' with
  | (pre, some suf) => (pre, suf)
  | (pre, none) => (pre, [])

/-- `url.split('?', 1)` when a `'?'` occurs, else no query. -/
def querySplit (u : List Char) : List Char × List Char :=
  match splitOnceAt u '?' with
  | (pre, some suf) => (pre, suf)
  | (pre, none) => (pre, [])

/-- `urllib.parse.urlsplit` (Python 3.11) on a character list:
sanitize, then scheme, then netloc, then fragment, then query. -/
def urlsplitChars (url0 : List Char) : ParseResult :=
  ⟨(schemeSplit (sanitize url0)).1,
   (netlocSplit (schemeSplit (sanitize url0)).2).1,
   (querySplit (fragSplit
     (netlocSplit (schemeSplit (sanitize url0)).2).2).1).1,
   [],
   (querySplit (fragSplit
     (netlocSplit (schemeSplit (sanitize url0)).2).2).1).2,
   (fragSplit (netlocSplit (schemeSplit (sanitize url0)).2).2).2⟩

/-- Schemes for which `urlparse` separates path parameters. -/
def usesParams : List (List Char) :=
  [[], "ftp".toList, "hdl".toList, "prospero".toList, "http".toList,
   "imap".toList, "https".toList, "shttp".toList, "rtsp".toList,
   "rtsps".toList, "rtspu".toList, "sip".toList, "sips".toList,
   "mms".toList, "sftp".toList, "tel".toList]

/-- `urllib.parse._splitparams`. -/
def splitparams (url : List Char) : List Char × List Char :=
  match splitAtLastSlash url with
  | some (pre, suf) =>
    match splitOnceAt suf ';' with
    | (p1, some p2) => (pre ++ p1, p2)
    | (_, none) => (url, [])
  | none =>
    match splitOnceAt url ';' with
    | (p1, some p2) => (p1, p2)
    | (_, none) => (url, [])

/-- `urllib.parse.urlparse`: split off path parameters when the scheme
uses them and the path contains a `';'`. -/
def urlparseChars (url : List Char) : ParseResult :=
  if (urlsplitChars url).scheme ∈ usesParams
      ∧ ';' ∈ (urlsplitChars url).path then
    { urlsplitChars url with
        path := (splitparams (urlsplitChars url).path).1,
        params := (splitparams (urlsplitChars url).path).2 }
  else urlsplitChars url

/-- `str.rstrip('/')`. -/
def rstripSlash (s : List Char) : List Char :=
  (s.reverse.dropWhile (fun c => c = '/')).reverse

/-- `URLQueue._normalize_url`: reassemble
`f"{scheme}://{netloc}{path}"`, append `f"?{query}"` when the query is
non-empty, and `rstrip('/')` the result. -/
def normalize_url (url : String) : String :=
  String.mk (rstripSlash
    (if (urlparseChars url.toList).query ≠ [] then
      (urlparseChars url.toList).scheme ++ "://".toList
        ++ (urlparseChars url.toList).netloc
        ++ (urlparseChars url.toList).path
        ++ '?' :: (urlparseChars url.toList).query
    else
      (urlparseChars url.toList).scheme ++ "://".toList
        ++ (urlparseChars url.toList).netloc
        ++ (urlparseChars url.toList).path))

/-! ### Inversion of the parser on well-formed URLs -/

theorem findChar_first :
    ∀ (A B : List Char) (c : Char), (∀ a ∈ A, a ≠ c) →
      findChar (A ++ c :: B) c = some A.length := by
  intro A
  induction A with
  | nil =>
    intro B c _
    simp [findChar]
  | cons a t ih =>
    intro B c hA
    have ha : a ≠ c := hA a (by simp)
    simp only [List.cons_append, findChar, if_neg ha, List.append_eq,
      ih B c (fun x hx => hA x (by simp [hx]))]
    rfl

theorem splitOnceAt_found :
    ∀ (A B : List Char) (c : Char), (∀ a ∈ A, a ≠ c) →
      splitOnceAt (A ++ c :: B) c = (A, some B) := by
  intro A
  induction A with
  | nil =>
    intro B c _
    simp [splitOnceAt]
  | cons a t ih =>
    intro B c hA
    have ha : a ≠ c := hA a (by simp)
    simp only [List.cons_append, splitOnceAt, if_neg ha, List.append_eq,
      ih B c (fun x hx => hA x (by simp [hx]))]

theorem splitOnceAt_not_found :
    ∀ (A : List Char) (c : Char), (∀ a ∈ A, a ≠ c) →
      splitOnceAt A c = (A, none) := by
  intro A
  induction A with
  | nil =>
    intro c _
    simp [splitOnceAt]
  | cons a t ih =>
    intro c hA
    have ha : a ≠ c := hA a (by simp)
    simp only [splitOnceAt, if_neg ha, ih c (fun x hx => hA x (by simp [hx]))]

theorem takeWhile_append_all {p : Char → Bool} :
    ∀ (A B : List Char), (∀ a ∈ A, p a = true) →
      (A ++ B).takeWhile p = A ++ B.takeWhile p := by
  intro A
  induction A with
  | nil =>
    intro B _
    simp
  | cons a t ih =>
    intro B hA
    simp only [List.cons_append, List.takeWhile_cons, hA a (by simp),
      List.append_eq, if_true, ih B (fun x hx => hA x (by simp [hx]))]

theorem dropWhile_append_all {p : Char → Bool} :
    ∀ (A B : List Char), (∀ a ∈ A, p a = true) →
      (A ++ B).dropWhile p = B.dropWhile p := by
  intro A
  induction A with
  | nil =>
    intro B _
    simp
  | cons a t ih =>
    intro B hA
    simp only [List.cons_append, List.dropWhile_cons, hA a (by simp),
      List.append_eq, if_true, ih B (fun x hx => hA x (by simp [hx]))]

theorem takeWhile_eq_nil_of_head {p : Char → Bool} {B : List Char}
    (hB : B = [] ∨ p (B.headD ' ') = false) : B.takeWhile p = [] := by
  rcases B with _ | ⟨b, t⟩
  · rfl
  · rcases hB with hB | hB
    · exact absurd hB (List.cons_ne_nil _ _)
    · simp only [List.headD_cons] at hB
      simp [List.takeWhile_cons, hB]

theorem dropWhile_eq_self_of_head {p : Char → Bool} {B : List Char}
    (hB : B = [] ∨ p (B.headD ' ') = false) : B.dropWhile p = B := by
  rcases B with _ | ⟨b, t⟩
  · rfl
  · rcases hB with hB | hB
    · exact absurd hB (List.cons_ne_nil _ _)
    · simp only [List.headD_cons] at hB
      simp [List.dropWhile_cons, hB]

theorem map_toLower_id :
    ∀ (S : List Char), (∀ c ∈ S, c.toLower = c) →
      S.map Char.toLower = S := by
  intro S
  induction S with
  | nil =>
    intro _
    rfl
  | cons a t ih =>
    intro hS
    simp only [List.map_cons, hS a (by simp),
      ih (fun x hx => hS x (by simp [hx]))]

/-- A well-formed absolute URL built from clean components parses back
into exactly those components (fragment kept apart, no parameters). -/
theorem urlparse_inversion
    (S H P Q F : List Char)
    (hS : S ≠ [])
    (hS0 : (S.headD ' ').isAlpha = true ∧ isC0OrSpace (S.headD ' ') = false)
    (hSc : ∀ c ∈ S, isSchemeChar c = true ∧ isUnsafeChar c = false ∧
      c ≠ ':' ∧ c.toLower = c)
    (hH : ∀ c ∈ H, isNetlocDelim c = false ∧ isUnsafeChar c = false)
    (hP : (P ≠ [] → P.headD ' ' = '/') ∧
      ∀ c ∈ P, c ≠ '?' ∧ c ≠ '#' ∧ c ≠ ';' ∧ isUnsafeChar c = false)
    (hQ : ∀ c ∈ Q, c ≠ '#' ∧ isUnsafeChar c = false)
    (hF : ∀ c ∈ F, isUnsafeChar c = false) :
    urlparseChars (S ++ [':', '/', '/'] ++ H ++ P
        ++ (if Q = [] then [] else '?' :: Q)
        ++ (if F = [] then [] else '#' :: F))
      = ⟨S, H, P, [], Q, F⟩ := by
  obtain ⟨s0, S', hS'⟩ : ∃ s0 S', S = s0 :: S' := by
    rcases S with _ | ⟨s0, S'⟩
    · exact absurd rfl hS
    · exact ⟨s0, S', rfl⟩
  have hs0a : s0.isAlpha = true := by
    rw [hS'] at hS0
    simpa using hS0.1
  have hs0c : isC0OrSpace s0 = false := by
    rw [hS'] at hS0
    simpa using hS0.2
  have hUshape : S ++ [':', '/', '/'] ++ H ++ P
      ++ (if Q = [] then [] else '?' :: Q)
      ++ (if F = [] then [] else '#' :: F)
      = S ++ ':' :: '/' :: '/' :: (H ++ (P
        ++ ((if Q = [] then [] else '?' :: Q)
          ++ (if F = [] then [] else '#' :: F)))) := by
    simp [List.append_assoc]
  -- every character of the URL survives sanitization
  have hclean : ∀ a ∈ S ++ ':' :: '/' :: '/' :: (H ++ (P
      ++ ((if Q = [] then [] else '?' :: Q)
        ++ (if F = [] then [] else '#' :: F)))),
      (!isUnsafeChar a) = true := by
    intro a ha
    simp only [List.mem_append, List.mem_cons] at ha
    rcases ha with ha | ha | ha | ha | ha | ha | ha | ha
    · simp [(hSc a ha).2.1]
    · subst ha
      decide
    · subst ha
      decide
    · subst ha
      decide
    · simp [(hH a ha).2]
    · simp [(hP.2 a ha).2.2.2]
    · by_cases hQe : Q = []
      · rw [if_pos hQe] at ha
        simp at ha
      · rw [if_neg hQe, List.mem_cons] at ha
        rcases ha with ha | ha
        · subst ha
          decide
        · simp [(hQ a ha).2]
    · by_cases hFe : F = []
      · rw [if_pos hFe] at ha
        simp at ha
      · rw [if_neg hFe, List.mem_cons] at ha
        rcases ha with ha | ha
        · subst ha
          decide
        · simp [hF a ha]
  have hsan : sanitize (S ++ [':', '/', '/'] ++ H ++ P
      ++ (if Q = [] then [] else '?' :: Q)
      ++ (if F = [] then [] else '#' :: F))
      = S ++ ':' :: '/' :: '/' :: (H ++ (P
        ++ ((if Q = [] then [] else '?' :: Q)
          ++ (if F = [] then [] else '#' :: F)))) := by
    rw [hUshape]
    unfold sanitize
    rw [hS', List.cons_append, List.dropWhile_cons, if_neg (by
      rw [hs0c]
      simp), ← List.cons_append, ← hS']
    exact List.filter_eq_self.mpr hclean
  -- the first ':' sits right after the scheme
  have hfind : findChar (S ++ ':' :: '/' :: '/' :: (H ++ (P
      ++ ((if Q = [] then [] else '?' :: Q)
        ++ (if F = [] then [] else '#' :: F))))) ':' = some S.length :=
    findChar_first _ _ _ (fun a ha => (hSc a ha).2.2.1)
  have hdropS : ∀ (R : List Char), (S ++ ':' :: R).drop (S.length + 1)
      = R := by
    intro R
    have h1 : S ++ ':' :: R = (S ++ [':']) ++ R := by
      simp
    rw [h1, show S.length + 1 = (S ++ [':']).length by simp,
      List.drop_left]
  have hscheme : schemeSplit (S ++ ':' :: '/' :: '/' :: (H ++ (P
      ++ ((if Q = [] then [] else '?' :: Q)
        ++ (if F = [] then [] else '#' :: F)))))
      = (S, '/' :: '/' :: (H ++ (P
        ++ ((if Q = [] then [] else '?' :: Q)
          ++ (if F = [] then [] else '#' :: F))))) := by
    unfold schemeSplit
    rw [hfind]
    dsimp only
    rw [if_pos ?side]
    case side =>
      refine ⟨by rw [hS']; simp, ?_, ?_⟩
      · rw [hS', List.cons_append, List.headD_cons]
        exact hs0a
      · rw [List.take_left]
        exact List.all_eq_true.mpr (fun a ha => (hSc a ha).1)
    rw [List.take_left, map_toLower_id S (fun c hc => (hSc c hc).2.2.2),
      hdropS]
  have hHall : ∀ a ∈ H, (!isNetlocDelim a) = true := by
    intro a ha
    simp [(hH a ha).1]
  have htail : P ++ ((if Q = [] then [] else '?' :: Q)
      ++ (if F = [] then [] else '#' :: F)) = [] ∨
      ((!isNetlocDelim ((P ++ ((if Q = [] then [] else '?' :: Q)
        ++ (if F = [] then [] else '#' :: F))).headD ' ')) = false) := by
    rcases hPe : P with _ | ⟨p0, P'⟩
    · rw [List.nil_append]
      by_cases hQe : Q = []
      · rw [if_pos hQe, List.nil_append]
        by_cases hFe : F = []
        · rw [if_pos hFe]
          exact Or.inl rfl
        · rw [if_neg hFe]
          refine Or.inr ?_
          rw [List.headD_cons]
          decide
      · rw [if_neg hQe, List.cons_append]
        refine Or.inr ?_
        rw [List.headD_cons]
        decide
    · have hp0 : p0 = '/' := by
        have := hP.1 (by rw [hPe]; exact List.cons_ne_nil _ _)
        rw [hPe, List.headD_cons] at this
        exact this
      subst hp0
      refine Or.inr ?_
      rw [List.cons_append, List.headD_cons]
      decide
  have hnetloc : netlocSplit ('/' :: '/' :: (H ++ (P
      ++ ((if Q = [] then [] else '?' :: Q)
        ++ (if F = [] then [] else '#' :: F)))))
      = (H, P ++ ((if Q = [] then [] else '?' :: Q)
        ++ (if F = [] then [] else '#' :: F))) := by
    unfold netlocSplit
    rw [if_pos (by rfl)]
    have hdrop2 : ('/' :: '/' :: (H ++ (P
        ++ ((if Q = [] then [] else '?' :: Q)
          ++ (if F = [] then [] else '#' :: F))))).drop 2
        = H ++ (P ++ ((if Q = [] then [] else '?' :: Q)
          ++ (if F = [] then [] else '#' :: F))) := rfl
    rw [hdrop2, takeWhile_append_all _ _ hHall,
      takeWhile_eq_nil_of_head htail, List.append_nil,
      dropWhile_append_all _ _ hHall, dropWhile_eq_self_of_head htail]
  have hnohashPQ : ∀ a ∈ P ++ (if Q = [] then [] else '?' :: Q),
      a ≠ '#' := by
    intro a ha
    rw [List.mem_append] at ha
    rcases ha with ha | ha
    · exact (hP.2 a ha).2.1
    · by_cases hQe : Q = []
      · rw [if_pos hQe] at ha
        simp at ha
      · rw [if_neg hQe, List.mem_cons] at ha
        rcases ha with ha | ha
        · subst ha
          decide
        · exact (hQ a ha).1
  have hfrag : fragSplit (P ++ ((if Q = [] then [] else '?' :: Q)
      ++ (if F = [] then [] else '#' :: F)))
      = (P ++ (if Q = [] then [] else '?' :: Q), F) := by
    unfold fragSplit
    by_cases hFe : F = []
    · rw [if_pos hFe, List.append_nil,
        splitOnceAt_not_found _ _ hnohashPQ, hFe]
    · rw [if_neg hFe, ← List.append_assoc,
        splitOnceAt_found _ _ _ hnohashPQ]
  have hquery : querySplit (P ++ (if Q = [] then [] else '?' :: Q))
      = (P, Q) := by
    unfold querySplit
    have hPq : ∀ a ∈ P, a ≠ '?' := fun a ha => (hP.2 a ha).1
    by_cases hQe : Q = []
    · rw [if_pos hQe, List.append_nil, splitOnceAt_not_found _ _ hPq,
        hQe]
    · rw [if_neg hQe, splitOnceAt_found _ _ _ hPq]
  have hsplit : urlsplitChars (S ++ [':', '/', '/'] ++ H ++ P
      ++ (if Q = [] then [] else '?' :: Q)
      ++ (if F = [] then [] else '#' :: F)) = ⟨S, H, P, [], Q, F⟩ := by
    unfold urlsplitChars
    simp only [hsan, hscheme, hnetloc, hfrag, hquery]
  unfold urlparseChars
  rw [hsplit]
  rw [if_neg ?noparams]
  case noparams =>
    intro hcon
    exact (hP.2 ';' hcon.2).2.2.1 rfl

/-- `_normalize_url` on a well-formed URL: the parsed pieces are
reassembled as `scheme://netloc + path (+ '?query')`, the fragment is
discarded, and the trailing slashes of the whole resulting string are
stripped. -/
theorem normalize_url_spec
    (S H P Q F : List Char)
    (hS : S ≠ [])
    (hS0 : (S.headD ' ').isAlpha = true ∧ isC0OrSpace (S.headD ' ') = false)
    (hSc : ∀ c ∈ S, isSchemeChar c = true ∧ isUnsafeChar c = false ∧
      c ≠ ':' ∧ c.toLower = c)
    (hH : ∀ c ∈ H, isNetlocDelim c = false ∧ isUnsafeChar c = false)
    (hP : (P ≠ [] → P.headD ' ' = '/') ∧
      ∀ c ∈ P, c ≠ '?' ∧ c ≠ '#' ∧ c ≠ ';' ∧ isUnsafeChar c = false)
    (hQ : ∀ c ∈ Q, c ≠ '#' ∧ isUnsafeChar c = false)
    (hF : ∀ c ∈ F, isUnsafeChar c = false) :
    normalize_url (String.mk (S ++ [':', '/', '/'] ++ H ++ P
        ++ (if Q = [] then [] else '?' :: Q)
        ++ (if F = [] then [] else '#' :: F)))
      = String.mk (rstripSlash (S ++ [':', '/', '/'] ++ H ++ P
        ++ (if Q = [] then [] else '?' :: Q))) := by
  have hinv := urlparse_inversion S H P Q F hS hS0 hSc hH hP hQ hF
  unfold normalize_url
  rw [show (String.mk (S ++ [':', '/', '/'] ++ H ++ P
      ++ (if Q = [] then [] else '?' :: Q)
      ++ (if F = [] then [] else '#' :: F))).toList
      = S ++ [':', '/', '/'] ++ H ++ P
      ++ (if Q = [] then [] else '?' :: Q)
      ++ (if F = [] then [] else '#' :: F) from rfl, hinv]
  by_cases hQe : Q = []
  · rw [if_neg (by simp [hQe]), if_pos hQe, List.append_nil]
    show String.mk (rstripSlash (S ++ "://".toList ++ H ++ P)) = _
    rw [show "://".toList = [':', '/', '/'] from rfl]
  · rw [if_pos (by simp [hQe]), if_neg hQe]
    show String.mk (rstripSlash (S ++ "://".toList ++ H ++ P ++ '?' :: Q))
        = _
    rw [show "://".toList = [':', '/', '/'] from rfl]

/-! ## The `URLQueue` worker machine (`async_queue.py`)

`add_url` and the worker loop of `URLQueue` are modelled as an
event-driven machine.  Between the queue/set updates of one item the
worker awaits (`on_success`, `on_failure`, the re-enqueue `put`), so the
states in which an item sits in a `done*` phase before its `finally`
block are observable to other coroutines.  `await queue.put` on an
`asyncio.Queue` waits instead of raising `QueueFull`, so the
`except QueueFull` branch of `add_url` is dead code and puts always
succeed here. -/

/-- Where an in-flight item stands inside its worker's iteration. -/
inductive Phase where
  | fetched
  | doneSuccess
  | doneRetry
  | doneFail
deriving DecidableEq, Repr

/-- `dict.__setitem__` on the failed map (assignment replaces). -/
def failedInsert (url err : String) (failed : List (String × String)) :
    List (String × String) :=
  if url ∈ failed.map Prod.fst then
    failed.map (fun p => if p.1 = url then (url, err) else p)
  else (url, err) :: failed

/-- Observable state of a `URLQueue` with its workers.  `active` holds
each busy worker's item and phase; `dequeued` is a ghost log of every
pop (= every transition of a URL into `processing`); `time` is a ghost
clock stamping `created_at`. -/
structure QState where
  heap : List Entry
  seen : List String
  processing : List String
  processed : List String
  failed : List (String × String)
  active : List (QueueItem × Phase)
  dequeued : List String
  time : Nat
deriving DecidableEq, Repr

def initQ : QState := ⟨[], [], [], [], [], [], [], 0⟩

/-- Events: an `add_url` call, a worker popping an item, the processor
returning or raising for the `i`-th in-flight item, and that item's
`finally` block running. -/
inductive QEv where
  | add (url : String) (priority : Priority)
      (metadata : List (String × String))
  | deq
  | succ (i : Nat)
  | fail (i : Nat) (err : String)
  | fin (i : Nat)
deriving DecidableEq, Repr

/-- `URLQueue.add_url`: normalize, drop if seen, else record as seen and
push `(priority.value, item)` with `retry_count = 0`. -/
def addUrlStep (S : QState) (url : String) (pr : Priority)
    (md : List (String × String)) : QState :=
  if normalize_url url ∈ S.seen then S
  else
    { S with
        seen := normalize_url url :: S.seen,
        heap := heappush S.heap (pr.value,
          ⟨normalize_url url, pr, md, 0, S.time⟩),
        time := S.time + 1 }

/-- A worker pops the heap and marks the URL as processing. -/
def deqStep (S : QState) : QState :=
  match heappop S.heap with
  | none => S
  | some (e, rest) =>
    { S with
        heap := rest,
        processing := S.processing.insert e.2.url,
        active := S.active ++ [(e.2, Phase.fetched)],
        dequeued := S.dequeued ++ [e.2.url] }

/-- The processor returned: `processed.add(url)` (before the
`on_success` callback and the `finally`). -/
def succStep (S : QState) (i : Nat) : QState :=
  match S.active.get? i with
  | some (it, Phase.fetched) =>
    { S with
        processed := S.processed.insert it.url,
        active := S.active.set i (it, Phase.doneSuccess) }
  | _ => S

/-- The processor raised: when `retry_count < max_retries` the item is
mutated (`retry_count += 1`, `priority = LOW`) and re-pushed; otherwise
the URL goes to the failed map (before `on_failure`). -/
def failStep (S : QState) (i : Nat) (err : String) (maxR : Nat) : QState :=
  match S.active.get? i with
  | some (it, Phase.fetched) =>
    if it.retry_count < maxR then
      { S with
          heap := heappush S.heap (Priority.low.value,
            { it with retry_count := it.retry_count + 1,
                      priority := Priority.low }),
          active := S.active.set i
            ({ it with retry_count := it.retry_count + 1,
                       priority := Priority.low }, Phase.doneRetry) }
    else
      { S with
          failed := failedInsert it.url err S.failed,
          active := S.active.set i (it, Phase.doneFail) }
  | _ => S

/-- The `finally` arm: `processing.discard(url)`, worker becomes idle. -/
def finStep (S : QState) (i : Nat) : QState :=
  match S.active.get? i with
  | some (it, ph) =>
    if ph = Phase.fetched then S
    else
      { S with
          processing := S.processing.erase it.url,
          active := S.active.eraseIdx i }
  | none => S

def qstep (maxR : Nat) (S : QState) (e : QEv) : QState :=
  match e with
  | QEv.add u p m => addUrlStep S u p m
  | QEv.deq => deqStep S
  | QEv.succ i => succStep S i
  | QEv.fail i err => failStep S i err maxR
  | QEv.fin i => finStep S i

def qrun (maxR : Nat) (evs : List QEv) : QState :=
  evs.foldl (qstep maxR) initQ

/-! ### Counting helpers for the queue invariant -/

theorem countP_set_eq {α : Type} {l : List α} {i : Nat} {a : α}
    (x : α) (p : α → Bool) (h : l.get? i = some a) :
    (l.set i x).countP p + (if p a then 1 else 0)
      = l.countP p + (if p x then 1 else 0) := by
  induction l generalizing i with
  | nil => simp at h
  | cons b t ih =>
    cases i with
    | zero =>
      simp only [List.get?_cons_zero, Option.some.injEq] at h
      subst h
      simp only [List.set_cons_zero, List.countP_cons]
      omega
    | succ n =>
      simp only [List.get?_cons_succ] at h
      simp only [List.set_cons_succ, List.countP_cons]
      have := ih (i := n) h
      omega

theorem countP_eraseIdx_eq {α : Type} {l : List α} {i : Nat} {a : α}
    (p : α → Bool) (h : l.get? i = some a) :
    l.countP p = (l.eraseIdx i).countP p + (if p a then 1 else 0) := by
  induction l generalizing i with
  | nil => simp at h
  | cons b t ih =>
    cases i with
    | zero =>
      simp only [List.get?_cons_zero, Option.some.injEq] at h
      subst h
      simp only [List.eraseIdx_cons_zero, List.countP_cons]
    | succ n =>
      simp only [List.get?_cons_succ] at h
      simp only [List.eraseIdx_cons_succ, List.countP_cons]
      have := ih (i := n) h
      omega

theorem mem_set_subset {α : Type} {l : List α} {i : Nat} {x a : α}
    (h : a ∈ l.set i x) : a = x ∨ a ∈ l := by
  induction l generalizing i with
  | nil => simp at h
  | cons b t ih =>
    cases i with
    | zero =>
      rw [List.set_cons_zero, List.mem_cons] at h
      rcases h with h | h
      · exact Or.inl h
      · exact Or.inr (List.mem_cons_of_mem _ h)
    | succ n =>
      rw [List.set_cons_succ, List.mem_cons] at h
      rcases h with h | h
      · exact Or.inr (by rw [h]; exact List.mem_cons_self _ _)
      · rcases ih h with h2 | h2
        · exact Or.inl h2
        · exact Or.inr (List.mem_cons_of_mem _ h2)

theorem mem_eraseIdx_subset {α : Type} {l : List α} {i : Nat} {a : α}
    (h : a ∈ l.eraseIdx i) : a ∈ l := by
  induction l generalizing i with
  | nil => simp [List.eraseIdx] at h
  | cons b t ih =>
    cases i with
    | zero =>
      rw [List.eraseIdx_cons_zero] at h
      exact List.mem_cons_of_mem _ h
    | succ n =>
      rw [List.eraseIdx_cons_succ, List.mem_cons] at h
      rcases h with h | h
      · rw [h]
        exact List.mem_cons_self _ _
      · exact List.mem_cons_of_mem _ (ih h)

/-- `heappush` adds one element, as seen by any counting predicate. -/
theorem heappush_countP (h : List Entry) (e : Entry) (p : Entry → Bool) :
    (heappush h e).countP p = h.countP p + (if p e then 1 else 0) := by
  have hperm : (heappush h e).Perm (h ++ [e]) := by
    rw [← Multiset.coe_eq_coe]
    rw [heappush_multiset]
    rw [← Multiset.coe_singleton e, Multiset.coe_add]
  rw [List.Perm.countP_congr hperm (fun x _ => rfl), List.countP_append]
  simp [List.countP_cons]

/-- A successful `heappop` removes exactly its returned element. -/
theorem heappop_countP {h rest : List Entry} {e : Entry}
    (hp : heappop h = some (e, rest)) (p : Entry → Bool) :
    h.countP p = rest.countP p + (if p e then 1 else 0) := by
  have hne : h ≠ [] := by
    intro hcon
    rw [heappop_eq_none_iff.mpr hcon] at hp
    exact Option.noConfusion hp
  obtain ⟨rest2, hpop2, _, hmul, _⟩ := heappop_some hne
  rw [hp] at hpop2
  have hpair := Option.some.inj hpop2
  rw [Prod.mk.injEq] at hpair
  obtain ⟨he, hr⟩ := hpair
  subst hr
  have hperm : (rest ++ [e]).Perm h := by
    rw [← Multiset.coe_eq_coe, ← Multiset.coe_add,
      Multiset.coe_singleton, he]
    exact hmul
  rw [← List.Perm.countP_congr hperm (fun x _ => rfl),
    List.countP_append]
  simp [List.countP_cons]

theorem heappop_mem {h rest : List Entry} {e : Entry}
    (hp : heappop h = some (e, rest)) : e ∈ h ∧ ∀ x ∈ rest, x ∈ h := by
  have hne : h ≠ [] := by
    intro hcon
    rw [heappop_eq_none_iff.mpr hcon] at hp
    exact Option.noConfusion hp
  obtain ⟨rest2, hpop2, _, hmul, _⟩ := heappop_some hne
  rw [hp] at hpop2
  have hpair := Option.some.inj hpop2
  rw [Prod.mk.injEq] at hpair
  obtain ⟨he, hr⟩ := hpair
  subst hr
  have hperm : (rest ++ [e]).Perm h := by
    rw [← Multiset.coe_eq_coe, ← Multiset.coe_add,
      Multiset.coe_singleton, he]
    exact hmul
  constructor
  · exact hperm.mem_iff.mp (by simp)
  · intro x hx
    exact hperm.mem_iff.mp (by simp [hx])

/-- Keys of the failed map after an insertion. -/
theorem failedInsert_keys (url err : String)
    (failed : List (String × String)) (u : String) :
    (u ∈ (failedInsert url err failed).map Prod.fst) ↔
      (u = url ∨ u ∈ failed.map Prod.fst) := by
  unfold failedInsert
  by_cases hm : url ∈ failed.map Prod.fst
  · rw [if_pos hm]
    constructor
    · intro hu
      rw [List.mem_map] at hu
      obtain ⟨p, hp, hup⟩ := hu
      rw [List.mem_map] at hp
      obtain ⟨q, hq, hqp⟩ := hp
      by_cases hq1 : q.1 = url
      · rw [if_pos hq1] at hqp
        rw [← hqp] at hup
        exact Or.inl hup.symm
      · rw [if_neg hq1] at hqp
        subst hqp
        exact Or.inr (List.mem_map.mpr ⟨q, hq, hup⟩)
    · intro hu
      rcases hu with hu | hu
      · subst hu
        rw [List.mem_map] at hm
        obtain ⟨q, hq, hq1⟩ := hm
        rw [List.mem_map]
        refine ⟨(u, err), List.mem_map.mpr ⟨q, hq, by rw [if_pos hq1]⟩,
          rfl⟩
      · rw [List.mem_map] at hu
        obtain ⟨q, hq, hq1⟩ := hu
        by_cases hq2 : q.1 = url
        · rw [List.mem_map]
          exact ⟨(url, err), List.mem_map.mpr ⟨q, hq, by rw [if_pos hq2]⟩,
            by rw [← hq1, hq2]⟩
        · rw [List.mem_map]
          exact ⟨q, List.mem_map.mpr ⟨q, hq, by rw [if_neg hq2]⟩, hq1⟩
  · rw [if_neg hm]
    simp

/-! ### The occupancy invariant of the queue

A URL "occupies" at most one slot across the heap, the set of items
whose processor is still running, the done set and the failed map.  The
`done*` windows (where the worker has recorded an outcome but not yet
run its `finally`) carry no separate occupancy: a retried item's slot
is its re-enqueued heap copy, a succeeded/failed item's slot is its
entry in `processed`/`failed`. -/

def pOcc (u : String) : Entry → Bool :=
  fun e => decide (e.2.url = u)

def pAct (u : String) : QueueItem × Phase → Bool :=
  fun a => decide (a.2 = Phase.fetched ∧ a.1.url = u)

def heapCount (u : String) (S : QState) : Nat :=
  S.heap.countP (pOcc u)

def activeCount (u : String) (S : QState) : Nat :=
  S.active.countP (pAct u)

def occ (u : String) (S : QState) : Nat :=
  heapCount u S + activeCount u S
    + (if u ∈ S.processed then 1 else 0)
    + (if u ∈ S.failed.map Prod.fst then 1 else 0)

/-- Inductive invariant of the worker machine: single occupancy, seen
covers everything live or logged, and retry counters advance in step
with the pop log. -/
structure QInv (maxR : Nat) (S : QState) : Prop where
  occ_le : ∀ u, occ u S ≤ 1
  occ_seen : ∀ u, 1 ≤ occ u S → u ∈ S.seen
  deq_seen : ∀ u, 1 ≤ S.dequeued.count u → u ∈ S.seen
  heap_cnt : ∀ e ∈ S.heap,
    e.2.retry_count = S.dequeued.count e.2.url ∧ e.2.retry_count ≤ maxR
  act_cnt : ∀ a ∈ S.active, a.2 = Phase.fetched →
    a.1.retry_count + 1 = S.dequeued.count a.1.url ∧
    a.1.retry_count ≤ maxR
  cnt_le : ∀ u, S.dequeued.count u ≤ maxR + 1

theorem qinv_init (maxR : Nat) : QInv maxR initQ := by
  constructor <;> intro u <;> simp [occ, heapCount, activeCount, initQ]

theorem heappush_mem {h : List Entry} {x : Entry} :
    ∀ e ∈ heappush h x, e = x ∨ e ∈ h := by
  intro e he
  have hperm : (heappush h x).Perm (h ++ [x]) := by
    rw [← Multiset.coe_eq_coe, heappush_multiset,
      ← Multiset.coe_singleton x, Multiset.coe_add]
  have := hperm.mem_iff.mp he
  rw [List.mem_append, List.mem_singleton] at this
  exact this.symm

theorem qinv_add {maxR : Nat} {S : QState} (inv : QInv maxR S)
    (url : String) (pr : Priority) (md : List (String × String)) :
    QInv maxR (addUrlStep S url pr md) := by
  unfold addUrlStep
  by_cases hseen : normalize_url url ∈ S.seen
  · rw [if_pos hseen]
    exact inv
  · rw [if_neg hseen]
    have hcnt0 : S.dequeued.count (normalize_url url) = 0 := by
      by_contra hc
      exact hseen (inv.deq_seen _ (by omega))
    have hocc0 : occ (normalize_url url) S = 0 := by
      by_contra hc
      exact hseen (inv.occ_seen _ (by omega))
    have hocc : ∀ u, occ u
        { S with
            seen := normalize_url url :: S.seen,
            heap := heappush S.heap (pr.value,
              ⟨normalize_url url, pr, md, 0, S.time⟩),
            time := S.time + 1 }
        = occ u S + (if normalize_url url = u then 1 else 0) := by
      intro u
      unfold occ heapCount activeCount
      simp only
      rw [heappush_countP]
      have : pOcc u (pr.value, ⟨normalize_url url, pr, md, 0, S.time⟩)
          = decide (normalize_url url = u) := rfl
      rw [this]
      by_cases he : normalize_url url = u
      · rw [if_pos (by simp [he]), if_pos he]
        omega
      · rw [if_neg (by simp [he]), if_neg he]
        omega
    constructor
    · intro u
      rw [hocc u]
      by_cases he : normalize_url url = u
      · rw [if_pos he, ← he, hocc0]
      · rw [if_neg he]
        have := inv.occ_le u
        omega
    · intro u hu
      rw [hocc u] at hu
      by_cases he : normalize_url url = u
      · rw [← he]
        exact List.mem_cons_self _ _
      · rw [if_neg he] at hu
        exact List.mem_cons_of_mem _ (inv.occ_seen u hu)
    · intro u hu
      exact List.mem_cons_of_mem _ (inv.deq_seen u hu)
    · intro e he
      rcases heappush_mem e he with he2 | he2
      · subst he2
        simp only
        rw [hcnt0]
        exact ⟨rfl, by omega⟩
      · exact inv.heap_cnt e he2
    · intro a ha hf
      exact inv.act_cnt a ha hf
    · intro u
      exact inv.cnt_le u

theorem qinv_deq {maxR : Nat} {S : QState} (inv : QInv maxR S) :
    QInv maxR (deqStep S) := by
  rcases hpop : heappop S.heap with _ | ⟨e, rest⟩
  · simp only [deqStep, hpop]
    exact inv
  · simp only [deqStep, hpop]
    obtain ⟨hmemE, hmemR⟩ := heappop_mem hpop
    obtain ⟨hcntE, hretE⟩ := inv.heap_cnt e hmemE
    have hheap : ∀ u, heapCount u S
        = rest.countP (pOcc u) + (if e.2.url = u then 1 else 0) := by
      intro u
      have h1 := heappop_countP hpop (pOcc u)
      unfold heapCount
      rw [h1]
      by_cases hu : e.2.url = u
      · rw [if_pos (by simp [pOcc, hu]), if_pos hu]
      · rw [if_neg (by simp [pOcc, hu]), if_neg hu]
    have hact : ∀ u, (S.active ++ [(e.2, Phase.fetched)]).countP (pAct u)
        = S.active.countP (pAct u) + (if e.2.url = u then 1 else 0) := by
      intro u
      rw [List.countP_append]
      by_cases hu : e.2.url = u
      · simp [pAct, hu]
      · simp [pAct, hu]
    have hcnt : ∀ u, (S.dequeued ++ [e.2.url]).count u
        = S.dequeued.count u + (if e.2.url = u then 1 else 0) := by
      intro u
      rw [List.count_append]
      by_cases hu : e.2.url = u
      · simp [List.count_cons, hu]
      · simp [List.count_cons, hu]
    have hhc1 : 0 < List.countP (pOcc e.2.url) S.heap := by
      rw [List.countP_pos_iff]
      exact ⟨e, hmemE, by simp [pOcc]⟩
    have hocc : ∀ u, occ u
        { S with
            heap := rest,
            processing := S.processing.insert e.2.url,
            active := S.active ++ [(e.2, Phase.fetched)],
            dequeued := S.dequeued ++ [e.2.url] }
        = occ u S := by
      intro u
      unfold occ heapCount activeCount
      simp only
      have h1 := hheap u
      have h2 := hact u
      unfold heapCount at h1
      omega
    constructor
    · intro u
      rw [hocc u]
      exact inv.occ_le u
    · intro u hu
      rw [hocc u] at hu
      exact inv.occ_seen u hu
    · intro u hu
      simp only at hu
      rw [hcnt u] at hu
      by_cases hue : e.2.url = u
      · refine inv.occ_seen u ?_
        have h3 := hhc1
        rw [hue] at h3
        unfold occ heapCount
        omega
      · rw [if_neg hue] at hu
        exact inv.deq_seen u (by omega)
    · intro e2 he2
      simp only at he2 ⊢
      have he2h := hmemR e2 he2
      obtain ⟨hc2, hr2⟩ := inv.heap_cnt e2 he2h
      have hne : e2.2.url ≠ e.2.url := by
        intro hcon
        have hr1 : 0 < rest.countP (pOcc e.2.url) := by
          rw [List.countP_pos_iff]
          exact ⟨e2, he2, by simp [pOcc, hcon]⟩
        have hh := hheap e.2.url
        rw [if_pos rfl] at hh
        unfold heapCount at hh
        have hocc2 := inv.occ_le e.2.url
        unfold occ heapCount at hocc2
        omega
      rw [hcnt e2.2.url, if_neg (fun hcon => hne hcon.symm)]
      exact ⟨by omega, hr2⟩
    · intro a ha hf
      simp only at ha ⊢
      rw [List.mem_append, List.mem_singleton] at ha
      rcases ha with ha | ha
      · obtain ⟨hc2, hr2⟩ := inv.act_cnt a ha hf
        have hne : a.1.url ≠ e.2.url := by
          intro hcon
          have ha1 : 0 < S.active.countP (pAct e.2.url) := by
            rw [List.countP_pos_iff]
            exact ⟨a, ha, by simp [pAct, hf, hcon]⟩
          have hr1 := hhc1
          have hocc2 := inv.occ_le e.2.url
          unfold occ heapCount activeCount at hocc2
          omega
        rw [hcnt a.1.url, if_neg (fun hcon => hne hcon.symm)]
        exact ⟨by omega, hr2⟩
      · subst ha
        simp only
        rw [hcnt e.2.url, if_pos rfl]
        exact ⟨by omega, hretE⟩
    · intro u
      simp only
      rw [hcnt u]
      by_cases hue : e.2.url = u
      · rw [if_pos hue, ← hue, ← hcntE]
        omega
      · rw [if_neg hue]
        have := inv.cnt_le u
        omega

theorem qinv_succ {maxR : Nat} {S : QState} (inv : QInv maxR S)
    (i : Nat) : QInv maxR (succStep S i) := by
  rcases hget : S.active.get? i with _ | ⟨it, ph⟩
  · simp only [succStep, hget]
    exact inv
  · cases ph with
    | fetched =>
      simp only [succStep, hget]
      have hmem : (it, Phase.fetched) ∈ S.active := List.get?_mem hget
      have hset := fun u => countP_set_eq (x := (it, Phase.doneSuccess))
        (pAct u) hget
      have hpf : ∀ u, pAct u (it, Phase.fetched)
          = decide (it.url = u) := by
        intro u
        simp [pAct]
      have hps : ∀ u, pAct u (it, Phase.doneSuccess) = false := by
        intro u
        simp [pAct]
      have ha1 : 0 < S.active.countP (pAct it.url) := by
        rw [List.countP_pos_iff]
        exact ⟨_, hmem, by simp [pAct]⟩
      have hproc : it.url ∉ S.processed := by
        intro hcon
        have hocc2 := inv.occ_le it.url
        unfold occ heapCount activeCount at hocc2
        rw [if_pos hcon] at hocc2
        omega
      have hocc : ∀ u, occ u
          { S with
              processed := S.processed.insert it.url,
              active := S.active.set i (it, Phase.doneSuccess) }
          = occ u S := by
        intro u
        unfold occ heapCount activeCount
        simp only
        have h2 := hset u
        rw [hpf u, hps u] at h2
        by_cases hu : it.url = u
        · rw [if_pos (by simp [hu]), if_neg (by simp)] at h2
          have hins : (if u ∈ S.processed.insert it.url then 1 else 0)
              = (1 : Nat) :=
            if_pos (List.mem_insert_iff.mpr (Or.inl hu.symm))
          have hold : (if u ∈ S.processed then 1 else 0) = (0 : Nat) :=
            if_neg (by rw [← hu]; exact hproc)
          rw [hins, hold]
          omega
        · rw [if_neg (by simp [hu]), if_neg (by simp)] at h2
          have hins : (if u ∈ S.processed.insert it.url then 1 else 0)
              = (if u ∈ S.processed then 1 else 0) := by
            by_cases hup : u ∈ S.processed
            · rw [if_pos (List.mem_insert_iff.mpr (Or.inr hup)),
                if_pos hup]
            · rw [if_neg (by
                  rw [List.mem_insert_iff]
                  rintro (hc | hc)
                  · exact hu hc.symm
                  · exact hup hc), if_neg hup]
          rw [hins]
          omega
      refine ⟨?_, ?_, ?_, ?_, ?_, ?_⟩
      · intro u
        rw [hocc u]
        exact inv.occ_le u
      · intro u hu
        rw [hocc u] at hu
        exact inv.occ_seen u hu
      · intro u hu
        exact inv.deq_seen u hu
      · intro e he
        exact inv.heap_cnt e he
      · intro a ha hf
        simp only at ha
        rcases mem_set_subset ha with ha2 | ha2
        · rw [ha2] at hf
          exact absurd hf (by simp)
        · exact inv.act_cnt a ha2 hf
      · intro u
        exact inv.cnt_le u
    | doneSuccess =>
      simp only [succStep, hget]
      exact inv
    | doneRetry =>
      simp only [succStep, hget]
      exact inv
    | doneFail =>
      simp only [succStep, hget]
      exact inv

theorem qinv_fail {maxR : Nat} {S : QState} (inv : QInv maxR S)
    (i : Nat) (err : String) : QInv maxR (failStep S i err maxR) := by
  rcases hget : S.active.get? i with _ | ⟨it, ph⟩
  · simp only [failStep, hget]
    exact inv
  · cases ph with
    | fetched =>
      simp only [failStep, hget]
      have hmem : (it, Phase.fetched) ∈ S.active := List.get?_mem hget
      have hacnt : it.retry_count + 1 = S.dequeued.count it.url :=
        (inv.act_cnt _ hmem rfl).1
      have haret : it.retry_count ≤ maxR := (inv.act_cnt _ hmem rfl).2
      have ha1 : 0 < S.active.countP (pAct it.url) := by
        rw [List.countP_pos_iff]
        exact ⟨_, hmem, by simp [pAct]⟩
      by_cases hretry : it.retry_count < maxR
      · rw [if_pos hretry]
        have hset := fun u => countP_set_eq (x := ({ it with retry_count := it.retry_count + 1, priority := Priority.low }, Phase.doneRetry)) (pAct u) hget
        have hocc : ∀ u, occ u { S with heap := heappush S.heap (Priority.low.value, { it with retry_count := it.retry_count + 1, priority := Priority.low }), active := S.active.set i ({ it with retry_count := it.retry_count + 1, priority := Priority.low }, Phase.doneRetry) } = occ u S := by
          intro u
          unfold occ heapCount activeCount
          simp only
          have h2 := hset u
          have h3 := heappush_countP S.heap (Priority.low.value, { it with retry_count := it.retry_count + 1, priority := Priority.low }) (pOcc u)
          rw [h3]
          by_cases hu : it.url = u
          · rw [if_pos (by simp [pAct, hu]), if_neg (by simp [pAct])]
              at h2
            rw [if_pos (by simp [pOcc, hu])]
            omega
          · rw [if_neg (by simp [pAct, hu]), if_neg (by simp [pAct])]
              at h2
            rw [if_neg (by simp [pOcc, hu])]
            omega
        refine ⟨?_, ?_, ?_, ?_, ?_, ?_⟩
        · intro u
          rw [hocc u]
          exact inv.occ_le u
        · intro u hu
          rw [hocc u] at hu
          exact inv.occ_seen u hu
        · intro u hu
          exact inv.deq_seen u hu
        · intro e he
          simp only at he
          rcases heappush_mem e he with he2 | he2
          · subst he2
            show it.retry_count + 1 = S.dequeued.count it.url ∧
              it.retry_count + 1 ≤ maxR
            exact ⟨hacnt, by omega⟩
          · exact inv.heap_cnt e he2
        · intro a ha hf
          simp only at ha
          rcases mem_set_subset ha with ha2 | ha2
          · rw [ha2] at hf
            exact absurd hf (by simp)
          · exact inv.act_cnt a ha2 hf
        · intro u
          exact inv.cnt_le u
      · rw [if_neg hretry]
        have hset := fun u => countP_set_eq (x := (it, Phase.doneFail))
          (pAct u) hget
        have hfail : it.url ∉ S.failed.map Prod.fst := by
          intro hcon
          have hocc2 := inv.occ_le it.url
          unfold occ heapCount activeCount at hocc2
          rw [if_pos hcon] at hocc2
          omega
        have hocc : ∀ u, occ u { S with failed := failedInsert it.url err S.failed, active := S.active.set i (it, Phase.doneFail) } = occ u S := by
          intro u
          unfold occ heapCount activeCount
          simp only
          have h2 := hset u
          by_cases hu : it.url = u
          · rw [if_pos (by simp [pAct, hu]), if_neg (by simp [pAct])]
              at h2
            have hins : (if u ∈ (failedInsert it.url err S.failed).map
                Prod.fst then 1 else 0) = (1 : Nat) :=
              if_pos ((failedInsert_keys _ _ _ _).mpr (Or.inl hu.symm))
            have hold : (if u ∈ S.failed.map Prod.fst then 1 else 0)
                = (0 : Nat) :=
              if_neg (by rw [← hu]; exact hfail)
            rw [hins, hold]
            omega
          · rw [if_neg (by simp [pAct, hu]), if_neg (by simp [pAct])]
              at h2
            have hins : (if u ∈ (failedInsert it.url err S.failed).map
                Prod.fst then 1 else 0)
                = (if u ∈ S.failed.map Prod.fst then 1 else 0) := by
              by_cases huf : u ∈ S.failed.map Prod.fst
              · rw [if_pos ((failedInsert_keys _ _ _ _).mpr (Or.inr huf)),
                  if_pos huf]
              · rw [if_neg (by
                    rw [failedInsert_keys]
                    rintro (hc | hc)
                    · exact hu hc.symm
                    · exact huf hc), if_neg huf]
            rw [hins]
            omega
        refine ⟨?_, ?_, ?_, ?_, ?_, ?_⟩
        · intro u
          rw [hocc u]
          exact inv.occ_le u
        · intro u hu
          rw [hocc u] at hu
          exact inv.occ_seen u hu
        · intro u hu
          exact inv.deq_seen u hu
        · intro e he
          exact inv.heap_cnt e he
        · intro a ha hf
          simp only at ha
          rcases mem_set_subset ha with ha2 | ha2
          · rw [ha2] at hf
            exact absurd hf (by simp)
          · exact inv.act_cnt a ha2 hf
        · intro u
          exact inv.cnt_le u
    | doneSuccess =>
      simp only [failStep, hget]
      exact inv
    | doneRetry =>
      simp only [failStep, hget]
      exact inv
    | doneFail =>
      simp only [failStep, hget]
      exact inv

theorem qinv_fin {maxR : Nat} {S : QState} (inv : QInv maxR S)
    (i : Nat) : QInv maxR (finStep S i) := by
  rcases hget : S.active.get? i with _ | ⟨it, ph⟩
  · simp only [finStep, hget]
    exact inv
  · simp only [finStep, hget]
    by_cases hph : ph = Phase.fetched
    · rw [if_pos hph]
      exact inv
    · rw [if_neg hph]
      have herase := fun u => countP_eraseIdx_eq (pAct u) hget
      have hocc : ∀ u, occ u { S with processing := S.processing.erase it.url, active := S.active.eraseIdx i } = occ u S := by
        intro u
        unfold occ heapCount activeCount
        simp only
        have h2 := herase u
        rw [if_neg (by
          simp only [pAct, decide_eq_true_eq, not_and]
          intro hc
          exact absurd hc hph)] at h2
        omega
      refine ⟨?_, ?_, ?_, ?_, ?_, ?_⟩
      · intro u
        rw [hocc u]
        exact inv.occ_le u
      · intro u hu
        rw [hocc u] at hu
        exact inv.occ_seen u hu
      · intro u hu
        exact inv.deq_seen u hu
      · intro e he
        exact inv.heap_cnt e he
      · intro a ha hf
        simp only at ha
        exact inv.act_cnt a (mem_eraseIdx_subset ha) hf
      · intro u
        exact inv.cnt_le u

theorem qinv_step {maxR : Nat} {S : QState} (inv : QInv maxR S)
    (e : QEv) : QInv maxR (qstep maxR S e) := by
  cases e with
  | add u p m => exact qinv_add inv u p m
  | deq => exact qinv_deq inv
  | succ i => exact qinv_succ inv i
  | fail i err => exact qinv_fail inv i err
  | fin i => exact qinv_fin inv i

theorem qrun_inv (maxR : Nat) (evs : List QEv) :
    QInv maxR (qrun maxR evs) := by
  unfold qrun
  suffices h : ∀ (l : List QEv) (S : QState), QInv maxR S →
      QInv maxR (l.foldl (qstep maxR) S) from
    h evs initQ (qinv_init maxR)
  intro l
  induction l with
  | nil =>
    intro S hS
    exact hS
  | cons e t ih =>
    intro S hS
    exact ih _ (qinv_step hS e)

theorem qstep_mono (maxR : Nat) (S : QState) (e : QEv) (u : String) :
    (u ∈ S.processed → u ∈ (qstep maxR S e).processed) ∧
    (u ∈ S.failed.map Prod.fst →
      u ∈ (qstep maxR S e).failed.map Prod.fst) := by
  cases e with
  | add url p m =>
    simp only [qstep]
    unfold addUrlStep
    by_cases hseen : normalize_url url ∈ S.seen
    · rw [if_pos hseen]
      exact ⟨id, id⟩
    · rw [if_neg hseen]
      exact ⟨id, id⟩
  | deq =>
    simp only [qstep]
    unfold deqStep
    rcases hpop : heappop S.heap with _ | ⟨e2, rest⟩
    · simp only [hpop]
      exact ⟨id, id⟩
    · simp only [hpop]
      exact ⟨id, id⟩
  | succ i =>
    simp only [qstep]
    unfold succStep
    rcases hget : S.active.get? i with _ | ⟨it, ph⟩
    · simp only [hget]
      exact ⟨id, id⟩
    · cases ph with
      | fetched =>
        simp only [hget]
        exact ⟨fun hu => List.mem_insert_iff.mpr (Or.inr hu), id⟩
      | doneSuccess =>
        simp only [hget]
        exact ⟨id, id⟩
      | doneRetry =>
        simp only [hget]
        exact ⟨id, id⟩
      | doneFail =>
        simp only [hget]
        exact ⟨id, id⟩
  | fail i err =>
    simp only [qstep]
    unfold failStep
    rcases hget : S.active.get? i with _ | ⟨it, ph⟩
    · simp only [hget]
      exact ⟨id, id⟩
    · cases ph with
      | fetched =>
        simp only [hget]
        by_cases hretry : it.retry_count < maxR
        · rw [if_pos hretry]
          exact ⟨id, id⟩
        · rw [if_neg hretry]
          exact ⟨id, fun hu => (failedInsert_keys _ _ _ _).mpr (Or.inr hu)⟩
      | doneSuccess =>
        simp only [hget]
        exact ⟨id, id⟩
      | doneRetry =>
        simp only [hget]
        exact ⟨id, id⟩
      | doneFail =>
        simp only [hget]
        exact ⟨id, id⟩
  | fin i =>
    simp only [qstep]
    unfold finStep
    rcases hget : S.active.get? i with _ | ⟨it, ph⟩
    · simp only [hget]
      exact ⟨id, id⟩
    · simp only [hget]
      by_cases hph : ph = Phase.fetched
      · rw [if_pos hph]
        exact ⟨id, id⟩
      · rw [if_neg hph]
        exact ⟨id, id⟩

theorem qrun_mono (maxR : Nat) (evs evs2 : List QEv) (u : String) :
    (u ∈ (qrun maxR evs).processed →
      u ∈ (qrun maxR (evs ++ evs2)).processed) ∧
    (u ∈ (qrun maxR evs).failed.map Prod.fst →
      u ∈ (qrun maxR (evs ++ evs2)).failed.map Prod.fst) := by
  unfold qrun
  rw [List.foldl_append]
  suffices h : ∀ (l : List QEv) (S : QState),
      (u ∈ S.processed → u ∈ (l.foldl (qstep maxR) S).processed) ∧
      (u ∈ S.failed.map Prod.fst →
        u ∈ (l.foldl (qstep maxR) S).failed.map Prod.fst) from
    h evs2 _
  intro l
  induction l with
  | nil =>
    intro S
    exact ⟨id, id⟩
  | cons e t ih =>
    intro S
    constructor
    · intro hu
      exact (ih (qstep maxR S e)).1 ((qstep_mono maxR S e u).1 hu)
    · intro hu
      exact (ih (qstep maxR S e)).2 ((qstep_mono maxR S e u).2 hu)

/-- The URLs currently sitting in the queue. -/
def queuedUrls (S : QState) : List String :=
  S.heap.map (fun e => e.2.url)

theorem disjoint_of_inv {maxR : Nat} {S : QState} (inv : QInv maxR S)
    (u : String) :
    ¬(u ∈ queuedUrls S ∧ u ∈ S.processed) ∧
    ¬(u ∈ queuedUrls S ∧ u ∈ S.failed.map Prod.fst) ∧
    ¬(u ∈ S.processed ∧ u ∈ S.failed.map Prod.fst) := by
  have hocc := inv.occ_le u
  unfold occ heapCount activeCount at hocc
  have hq : u ∈ queuedUrls S → 0 < S.heap.countP (pOcc u) := by
    intro hu
    unfold queuedUrls at hu
    rw [List.mem_map] at hu
    obtain ⟨e, he, heu⟩ := hu
    rw [List.countP_pos_iff]
    exact ⟨e, he, by simp [pOcc, heu]⟩
  refine ⟨?_, ?_, ?_⟩
  · rintro ⟨h1, h2⟩
    have h3 := hq h1
    rw [if_pos h2] at hocc
    omega
  · rintro ⟨h1, h2⟩
    have h3 := hq h1
    rw [if_pos h2] at hocc
    omega
  · rintro ⟨h1, h2⟩
    rw [if_pos h1, if_pos h2] at hocc
    omega

/-! ## Checkpointing (`save_state` / `load_state`) -/

/-- One pending-queue record as dumped by `save_state`:
`{url, priority.name, metadata, retry_count}`. -/
structure PendingRec where
  url : String
  priority_name : String
  metadata : List (String × String)
  retry_count : Nat
deriving DecidableEq, Repr

/-- The persisted state: seen URLs, processed set, failed map and the
pending records (stats and timestamp are dumped too but irrelevant to
continuation). -/
structure Checkpoint where
  seen_urls : List String
  processed : List String
  failed : List (String × String)
  pending : List PendingRec
deriving DecidableEq, Repr

/-- `URLQueue.save_state`: drain the queue with `get_nowait` (one
`heappop` per item), dump each pending item, then `put` the drained
entries back.  Returns the checkpoint and the queue state after the
drain-and-refill. -/
def save_state (S : QState) : Checkpoint × QState :=
  (⟨S.seen, S.processed, S.failed,
    (popAll S.heap).map (fun e =>
      ⟨e.2.url, e.2.priority.pname, e.2.metadata, e.2.retry_count⟩)⟩,
   { S with heap := pushAll [] (popAll S.heap) })

/-- Re-enqueue loop of `load_state`; `Priority[name]` raises `KeyError`
on an unknown name, modelled by `none`.  The restored items get a fresh
`created_at` (`now`). -/
def loadPending (h : List Entry) : List PendingRec → Nat →
    Option (List Entry)
  | [], _ => some h
  | r :: rs, now =>
    match Priority.ofName r.priority_name with
    | some p =>
      loadPending
        (heappush h (p.value, ⟨r.url, p, r.metadata, r.retry_count, now⟩))
        rs now
    | none => none

/-- `URLQueue.load_state`: restore the three sets and re-enqueue every
pending record with its recorded priority, metadata and retry count. -/
def load_state (S : QState) (cp : Checkpoint) (now : Nat) :
    Option QState :=
  match loadPending S.heap cp.pending now with
  | some h =>
    some { S with
        seen := cp.seen_urls,
        processed := cp.processed,
        failed := cp.failed,
        heap := h }
  | none => none

/-- The observable identity of a pending item: url, priority, metadata
and retry count (`created_at` is not persisted). -/
def entryProj (e : Entry) :
    String × Priority × List (String × String) × Nat :=
  (e.2.url, e.2.priority, e.2.metadata, e.2.retry_count)

theorem ofName_pname (p : Priority) : Priority.ofName p.pname = some p := by
  cases p <;> rfl

theorem loadPending_mapped :
    ∀ (ents : List Entry) (h : List Entry) (now : Nat),
      loadPending h (ents.map (fun e =>
        ⟨e.2.url, e.2.priority.pname, e.2.metadata, e.2.retry_count⟩))
        now
      = some (pushAll h (ents.map (fun e => (e.2.priority.value,
          ⟨e.2.url, e.2.priority, e.2.metadata, e.2.retry_count, now⟩)))) := by
  intro ents
  induction ents with
  | nil =>
    intro h now
    rfl
  | cons e t ih =>
    intro h now
    simp only [List.map_cons, loadPending, ofName_pname]
    exact ih _ now

/-- Saving and restoring into a fresh queue reproduces the seen set,
the processed set, the failed map, and the pending items up to
permutation of `{url, priority, metadata, retry_count}`. -/
theorem save_load_roundtrip (S : QState) (now : Nat) :
    ∃ L, load_state initQ (save_state S).1 now = some L ∧
      L.seen = S.seen ∧ L.processed = S.processed ∧
      L.failed = S.failed ∧
      (↑(L.heap.map entryProj) :
        Multiset (String × Priority × List (String × String) × Nat))
        = ↑(S.heap.map entryProj) := by
  unfold load_state save_state
  simp only
  rw [loadPending_mapped]
  refine ⟨_, rfl, rfl, rfl, rfl, ?_⟩
  simp only
  have hpush : (↑(pushAll initQ.heap ((popAll S.heap).map (fun e =>
      (e.2.priority.value, (⟨e.2.url, e.2.priority, e.2.metadata,
        e.2.retry_count, now⟩ : QueueItem))))) : Multiset Entry)
      = ↑((popAll S.heap).map (fun e =>
      (e.2.priority.value, (⟨e.2.url, e.2.priority, e.2.metadata,
        e.2.retry_count, now⟩ : QueueItem)))) := by
    have h := (pushAll_spec ((popAll S.heap).map (fun e =>
      (e.2.priority.value, (⟨e.2.url, e.2.priority, e.2.metadata,
        e.2.retry_count, now⟩ : QueueItem)))) initQ.heap heapInv_nil).2
    rw [h]
    show (↑([] : List Entry) : Multiset Entry) + _ = _
    rw [Multiset.coe_nil, zero_add]
  rw [← Multiset.map_coe, hpush, Multiset.map_coe, List.map_map]
  have hcomp : (entryProj ∘ (fun e => (e.2.priority.value,
      (⟨e.2.url, e.2.priority, e.2.metadata,
        e.2.retry_count, now⟩ : QueueItem)))) = entryProj := by
    funext e
    rfl
  rw [hcomp, ← Multiset.map_coe, popAll_multiset, Multiset.map_coe]

/-! ## `RateLimiter` (`async_http_client.py`)

Times and token counts are rationals; the successive values of
`time.monotonic()` observed by the loop are supplied as a list. -/

structure RLState where
  tokens : ℚ
  last_update : ℚ
deriving DecidableEq, Repr

/-- `RateLimiter.__init__`: a full bucket. -/
def rlInit (burst : Nat) (t0 : ℚ) : RLState :=
  ⟨(burst : ℚ), t0⟩

/-- `RateLimiter.acquire`: the `while self.tokens <= 0` loop refills
from the elapsed time (clamped to `burst`) and sleeps
`(1 - tokens)/rate` while still empty; on exit one token is consumed.
Returns the new state and the sleeps performed, or `none` when the
supplied time sequence runs out with the bucket still empty. -/
def acquire (rate burst : ℚ) (times : List ℚ) (s : RLState) :
    Option (RLState × List ℚ) :=
  if s.tokens ≤ 0 then
    match times with
    | [] => none
    | now :: rest =>
      match acquire rate burst rest
          ⟨min (s.tokens + (now - s.last_update) * rate) burst, now⟩ with
      | some (s2, sleeps) =>
        some (s2,
          (if min (s.tokens + (now - s.last_update) * rate) burst ≤ 0
           then [(1 - min (s.tokens + (now - s.last_update) * rate) burst)
             / rate]
           else []) ++ sleeps)
      | none => none
  else
    some (⟨s.tokens - 1, s.last_update⟩, [])
termination_by times.length
decreasing_by simp

/-! ## `AsyncHTTPClient.fetch` (`async_http_client.py`)

The network is a script assigning each attempt its outcome. -/

structure HStats where
  total_requests : Nat
  successful_requests : Nat
  failed_requests : Nat
  total_bytes : Nat
deriving DecidableEq, Repr

def zeroStats : HStats := ⟨0, 0, 0, 0⟩

/-- What one attempted request does: a response with a status, a
`Retry-After` header and a body length; a timeout; an
`aiohttp.ClientError`; or an unexpected exception. -/
inductive Outcome where
  | resp (status : Nat) (retryAfter : Option Nat) (blen : Nat)
  | timeout
  | clientError (msg : String)
  | unexpected (msg : String)
deriving DecidableEq, Repr

inductive Sleep where
  | retryAfter (secs : Nat)
  | backoff (secs : ℚ)
deriving DecidableEq, Repr

/-- `fetch`'s result: a response, `None`, a re-raised exception, or the
`RuntimeError` thrown when the session was never started. -/
inductive FetchResult where
  | ok (status : Nat) (blen : Nat)
  | nil
  | raised (msg : String)
  | notStarted
deriving DecidableEq, Repr

/-- The `while attempt < self.retry_attempts` loop of `fetch`.
`total_requests` is bumped before each request; a body read bumps
`successful_requests` and `total_bytes` regardless of the status; 429
sleeps `Retry-After` (default 60) and `continue`s; 5xx, timeout and
transport errors fall through to the exponential backoff (slept only
when another attempt remains); other 4xx return `None` at once;
unexpected exceptions re-raise; exhausting the attempts returns `None`
and bumps `failed_requests`. -/
def fetchLoop (ra : Nat) (rd : ℚ) (env : Nat → Outcome) (attempt : Nat)
    (stats : HStats) (sleeps : List Sleep) :
    FetchResult × HStats × List Sleep :=
  if _h : attempt < ra then
    match env attempt with
    | Outcome.resp status rAfter blen =>
      if status < 400 then
        (FetchResult.ok status blen,
         { stats with
             total_requests := stats.total_requests + 1,
             successful_requests := stats.successful_requests + 1,
             total_bytes := stats.total_bytes + blen },
         sleeps)
      else if status = 429 then
        fetchLoop ra rd env (attempt + 1)
          { stats with
              total_requests := stats.total_requests + 1,
              successful_requests := stats.successful_requests + 1,
              total_bytes := stats.total_bytes + blen }
          (sleeps ++ [Sleep.retryAfter (rAfter.getD 60)])
      else if 500 ≤ status then
        fetchLoop ra rd env (attempt + 1)
          { stats with
              total_requests := stats.total_requests + 1,
              successful_requests := stats.successful_requests + 1,
              total_bytes := stats.total_bytes + blen }
          (sleeps ++ (if attempt < ra - 1
            then [Sleep.backoff (rd * 2 ^ attempt)] else []))
      else
        (FetchResult.nil,
         { stats with
             total_requests := stats.total_requests + 1,
             successful_requests := stats.successful_requests + 1,
             total_bytes := stats.total_bytes + blen,
             failed_requests := stats.failed_requests + 1 },
         sleeps)
    | Outcome.timeout =>
      fetchLoop ra rd env (attempt + 1)
        { stats with total_requests := stats.total_requests + 1 }
        (sleeps ++ (if attempt < ra - 1
          then [Sleep.backoff (rd * 2 ^ attempt)] else []))
    | Outcome.clientError _ =>
      fetchLoop ra rd env (attempt + 1)
        { stats with total_requests := stats.total_requests + 1 }
        (sleeps ++ (if attempt < ra - 1
          then [Sleep.backoff (rd * 2 ^ attempt)] else []))
    | Outcome.unexpected m =>
      (FetchResult.raised m,
       { stats with
           total_requests := stats.total_requests + 1,
           failed_requests := stats.failed_requests + 1 },
       sleeps)
  else
    (FetchResult.nil,
     { stats with failed_requests := stats.failed_requests + 1 },
     sleeps)
termination_by ra - attempt
decreasing_by all_goals omega

/-- `AsyncHTTPClient.fetch`: `RuntimeError` when no session exists,
else the retry loop from attempt 0. -/
def fetch (session : Bool) (ra : Nat) (rd : ℚ) (env : Nat → Outcome)
    (stats : HStats) : FetchResult × HStats × List Sleep :=
  if session then fetchLoop ra rd env 0 stats []
  else (FetchResult.notStarted, stats, [])

/-- Outcomes that make the loop move on to another attempt. -/
def continuing : Outcome → Prop
  | Outcome.resp status _ _ => status = 429 ∨ 500 ≤ status
  | Outcome.timeout => True
  | Outcome.clientError _ => True
  | Outcome.unexpected _ => False

/-- Retryable failures (5xx, timeout, transport error). -/
def retryableFail : Outcome → Prop
  | Outcome.resp status _ _ => 500 ≤ status
  | Outcome.timeout => True
  | Outcome.clientError _ => True
  | Outcome.unexpected _ => False

/-- Exponential-backoff sleeps performed from a given attempt on, when
every attempt fails retryably. -/
def expBackoffs (rd : ℚ) (ra attempt : Nat) : List Sleep :=
  if _h : attempt < ra - 1 then
    Sleep.backoff (rd * 2 ^ attempt) :: expBackoffs rd ra (attempt + 1)
  else []
termination_by ra - attempt
decreasing_by omega

theorem expBackoffs_eq (rd : ℚ) :
    ∀ (n ra attempt : Nat), ra - attempt ≤ n →
      expBackoffs rd ra attempt
        = (List.range' attempt (ra - 1 - attempt)).map
          (fun k => Sleep.backoff (rd * 2 ^ k)) := by
  intro n
  induction n with
  | zero =>
    intro ra attempt hn
    rw [expBackoffs, dif_neg (by omega)]
    rw [show ra - 1 - attempt = 0 by omega]
    rfl
  | succ n ih =>
    intro ra attempt hn
    rw [expBackoffs]
    by_cases hlt : attempt < ra - 1
    · rw [dif_pos hlt, ih ra (attempt + 1) (by omega)]
      rw [show ra - 1 - attempt = (ra - 1 - (attempt + 1)) + 1 by omega]
      rw [List.range'_succ, List.map_cons]
    · rw [dif_neg hlt, show ra - 1 - attempt = 0 by omega]
      rfl

theorem fetchLoop_total_le (ra : Nat) (rd : ℚ) (env : Nat → Outcome) :
    ∀ (n attempt : Nat) (stats : HStats) (sleeps : List Sleep),
      ra - attempt ≤ n →
      (fetchLoop ra rd env attempt stats sleeps).2.1.total_requests
        ≤ stats.total_requests + (ra - attempt) := by
  intro n
  induction n with
  | zero =>
    intro attempt stats sleeps hn
    rw [fetchLoop, dif_neg (by omega)]
    simp only
    omega
  | succ n ih =>
    intro attempt stats sleeps hn
    rw [fetchLoop]
    by_cases ha : attempt < ra
    · rw [dif_pos ha]
      rcases henv : env attempt with ⟨status, rA, blen⟩ | _ | m | m
      · dsimp only
        by_cases h1 : status < 400
        · rw [if_pos h1]
          simp only
          omega
        · rw [if_neg h1]
          by_cases h2 : status = 429
          · rw [if_pos h2]
            have := ih (attempt + 1)
              { stats with
                  total_requests := stats.total_requests + 1,
                  successful_requests := stats.successful_requests + 1,
                  total_bytes := stats.total_bytes + blen }
              (sleeps ++ [Sleep.retryAfter (rA.getD 60)]) (by omega)
            simp only at this
            omega
          · rw [if_neg h2]
            by_cases h3 : 500 ≤ status
            · rw [if_pos h3]
              have := ih (attempt + 1)
                { stats with
                    total_requests := stats.total_requests + 1,
                    successful_requests := stats.successful_requests + 1,
                    total_bytes := stats.total_bytes + blen }
                (sleeps ++ (if attempt < ra - 1
                  then [Sleep.backoff (rd * 2 ^ attempt)] else []))
                (by omega)
              simp only at this
              omega
            · rw [if_neg h3]
              simp only
              omega
      · dsimp only
        have := ih (attempt + 1)
          { stats with total_requests := stats.total_requests + 1 }
          (sleeps ++ (if attempt < ra - 1
            then [Sleep.backoff (rd * 2 ^ attempt)] else [])) (by omega)
        simp only at this
        omega
      · dsimp only
        have := ih (attempt + 1)
          { stats with total_requests := stats.total_requests + 1 }
          (sleeps ++ (if attempt < ra - 1
            then [Sleep.backoff (rd * 2 ^ attempt)] else [])) (by omega)
        simp only at this
        omega
      · dsimp only
        omega
    · rw [dif_neg ha]
      simp only
      omega

theorem backoff_cons (rd : ℚ) (ra attempt : Nat) :
    (if attempt < ra - 1 then [Sleep.backoff (rd * 2 ^ attempt)] else [])
      ++ expBackoffs rd ra (attempt + 1) = expBackoffs rd ra attempt := by
  conv_rhs => rw [expBackoffs]
  by_cases hl : attempt < ra - 1
  · rw [if_pos hl, dif_pos hl, List.singleton_append]
  · rw [if_neg hl, dif_neg hl, List.nil_append, expBackoffs,
      dif_neg (by omega)]

theorem fetchLoop_4xx (ra : Nat) (rd : ℚ) (env : Nat → Outcome)
    (st : Nat) (rA : Option Nat) (bl : Nat) :
    ∀ (j attempt : Nat) (stats : HStats) (sleeps : List Sleep),
      (∀ k, k < j → continuing (env (attempt + k))) →
      env (attempt + j) = Outcome.resp st rA bl →
      400 ≤ st → st ≠ 429 → st < 500 → attempt + j < ra →
      (fetchLoop ra rd env attempt stats sleeps).1 = FetchResult.nil ∧
      (fetchLoop ra rd env attempt stats sleeps).2.1.total_requests
        = stats.total_requests + (j + 1) ∧
      (fetchLoop ra rd env attempt stats sleeps).2.1.failed_requests
        = stats.failed_requests + 1 := by
  intro j
  induction j with
  | zero =>
    intro attempt stats sleeps hcont henv h4 h9 h5 hra
    rw [Nat.add_zero] at henv hra
    rw [fetchLoop, dif_pos hra, henv]
    dsimp only
    rw [if_neg (by omega), if_neg h9, if_neg (by omega)]
    exact ⟨rfl, rfl, rfl⟩
  | succ j ih =>
    intro attempt stats sleeps hcont henv h4 h9 h5 hra
    have hcont2 : ∀ k, k < j → continuing (env (attempt + 1 + k)) := by
      intro k hk
      have h1 : attempt + 1 + k = attempt + (k + 1) := by omega
      rw [h1]
      exact hcont (k + 1) (by omega)
    have henv2 : env (attempt + 1 + j) = Outcome.resp st rA bl := by
      have h1 : attempt + 1 + j = attempt + (j + 1) := by omega
      rw [h1]
      exact henv
    have hra0 : attempt < ra := by omega
    rw [fetchLoop, dif_pos hra0]
    have hc0 := hcont 0 (by omega)
    rw [Nat.add_zero] at hc0
    rcases he0 : env attempt with ⟨s0, r0, b0⟩ | _ | m | m
    · rw [he0] at hc0
      have hc : s0 = 429 ∨ 500 ≤ s0 := hc0
      dsimp only
      rw [if_neg (by omega)]
      by_cases h0429 : s0 = 429
      · rw [if_pos h0429]
        obtain ⟨hr, ht, hf⟩ := ih (attempt + 1)
          { stats with
              total_requests := stats.total_requests + 1,
              successful_requests := stats.successful_requests + 1,
              total_bytes := stats.total_bytes + b0 }
          (sleeps ++ [Sleep.retryAfter (r0.getD 60)])
          hcont2 henv2 h4 h9 h5 (by omega)
        simp only at ht hf
        exact ⟨hr, by omega, by omega⟩
      · rw [if_neg h0429, if_pos (by omega : 500 ≤ s0)]
        obtain ⟨hr, ht, hf⟩ := ih (attempt + 1)
          { stats with
              total_requests := stats.total_requests + 1,
              successful_requests := stats.successful_requests + 1,
              total_bytes := stats.total_bytes + b0 }
          (sleeps ++ (if attempt < ra - 1
            then [Sleep.backoff (rd * 2 ^ attempt)] else []))
          hcont2 henv2 h4 h9 h5 (by omega)
        simp only at ht hf
        exact ⟨hr, by omega, by omega⟩
    · dsimp only
      obtain ⟨hr, ht, hf⟩ := ih (attempt + 1)
        { stats with total_requests := stats.total_requests + 1 }
        (sleeps ++ (if attempt < ra - 1
          then [Sleep.backoff (rd * 2 ^ attempt)] else []))
        hcont2 henv2 h4 h9 h5 (by omega)
      simp only at ht hf
      exact ⟨hr, by omega, by omega⟩
    · dsimp only
      obtain ⟨hr, ht, hf⟩ := ih (attempt + 1)
        { stats with total_requests := stats.total_requests + 1 }
        (sleeps ++ (if attempt < ra - 1
          then [Sleep.backoff (rd * 2 ^ attempt)] else []))
        hcont2 henv2 h4 h9 h5 (by omega)
      simp only at ht hf
      exact ⟨hr, by omega, by omega⟩
    · rw [he0] at hc0
      exact hc0.elim

theorem fetchLoop_allfail (ra : Nat) (rd : ℚ) (env : Nat → Outcome)
    (hall : ∀ k, retryableFail (env k)) :
    ∀ (n attempt : Nat) (stats : HStats) (sleeps : List Sleep),
      ra - attempt ≤ n →
      (fetchLoop ra rd env attempt stats sleeps).1 = FetchResult.nil ∧
      (fetchLoop ra rd env attempt stats sleeps).2.1.total_requests
        = stats.total_requests + (ra - attempt) ∧
      (fetchLoop ra rd env attempt stats sleeps).2.1.failed_requests
        = stats.failed_requests + 1 ∧
      (fetchLoop ra rd env attempt stats sleeps).2.2
        = sleeps ++ expBackoffs rd ra attempt := by
  intro n
  induction n with
  | zero =>
    intro attempt stats sleeps hn
    rw [fetchLoop, dif_neg (by omega), expBackoffs, dif_neg (by omega)]
    exact ⟨rfl, by simp only; omega, rfl, (List.append_nil sleeps).symm⟩
  | succ n ih =>
    intro attempt stats sleeps hn
    by_cases ha : attempt < ra
    · rw [fetchLoop, dif_pos ha]
      have hr := hall attempt
      rcases he : env attempt with ⟨s0, r0, b0⟩ | _ | m | m
      · rw [he] at hr
        have h500 : 500 ≤ s0 := hr
        dsimp only
        rw [if_neg (by omega), if_neg (by omega), if_pos h500]
        obtain ⟨h1, h2, h3, h4⟩ := ih (attempt + 1)
          { stats with
              total_requests := stats.total_requests + 1,
              successful_requests := stats.successful_requests + 1,
              total_bytes := stats.total_bytes + b0 }
          (sleeps ++ (if attempt < ra - 1
            then [Sleep.backoff (rd * 2 ^ attempt)] else [])) (by omega)
        simp only at h2 h3
        refine ⟨h1, by omega, h3, ?_⟩
        rw [h4, List.append_assoc, backoff_cons]
      · dsimp only
        obtain ⟨h1, h2, h3, h4⟩ := ih (attempt + 1)
          { stats with total_requests := stats.total_requests + 1 }
          (sleeps ++ (if attempt < ra - 1
            then [Sleep.backoff (rd * 2 ^ attempt)] else [])) (by omega)
        simp only at h2 h3
        refine ⟨h1, by omega, h3, ?_⟩
        rw [h4, List.append_assoc, backoff_cons]
      · dsimp only
        obtain ⟨h1, h2, h3, h4⟩ := ih (attempt + 1)
          { stats with total_requests := stats.total_requests + 1 }
          (sleeps ++ (if attempt < ra - 1
            then [Sleep.backoff (rd * 2 ^ attempt)] else [])) (by omega)
        simp only at h2 h3
        refine ⟨h1, by omega, h3, ?_⟩
        rw [h4, List.append_assoc, backoff_cons]
      · rw [he] at hr
        exact hr.elim
    · rw [fetchLoop, dif_neg ha, expBackoffs, dif_neg (by omega)]
      exact ⟨rfl, by simp only; omega, rfl, (List.append_nil sleeps).symm⟩

theorem fetchLoop_sleeps_le (ra : Nat) (rd : ℚ) (env : Nat → Outcome) :
    ∀ (n attempt : Nat) (stats : HStats) (sleeps : List Sleep),
      ra - attempt ≤ n →
      (fetchLoop ra rd env attempt stats sleeps).2.2.length
        ≤ sleeps.length + (ra - attempt) := by
  intro n
  induction n with
  | zero =>
    intro attempt stats sleeps hn
    rw [fetchLoop, dif_neg (by omega)]
    simp only
    omega
  | succ n ih =>
    intro attempt stats sleeps hn
    rw [fetchLoop]
    by_cases ha : attempt < ra
    · rw [dif_pos ha]
      have hite : (if attempt < ra - 1
          then [Sleep.backoff (rd * 2 ^ attempt)] else []).length ≤ 1 := by
        split <;> simp
      rcases henv : env attempt with ⟨status, rA, blen⟩ | _ | m | m
      · dsimp only
        by_cases h1 : status < 400
        · rw [if_pos h1]
          simp only
          omega
        · rw [if_neg h1]
          by_cases h2 : status = 429
          · rw [if_pos h2]
            have := ih (attempt + 1)
              { stats with
                  total_requests := stats.total_requests + 1,
                  successful_requests := stats.successful_requests + 1,
                  total_bytes := stats.total_bytes + blen }
              (sleeps ++ [Sleep.retryAfter (rA.getD 60)]) (by omega)
            rw [List.length_append] at this
            simp only [List.length_cons, List.length_nil] at this
            omega
          · rw [if_neg h2]
            by_cases h3 : 500 ≤ status
            · rw [if_pos h3]
              have := ih (attempt + 1)
                { stats with
                    total_requests := stats.total_requests + 1,
                    successful_requests := stats.successful_requests + 1,
                    total_bytes := stats.total_bytes + blen }
                (sleeps ++ (if attempt < ra - 1
                  then [Sleep.backoff (rd * 2 ^ attempt)] else []))
                (by omega)
              rw [List.length_append] at this
              omega
            · rw [if_neg h3]
              simp only
              omega
      · dsimp only
        have := ih (attempt + 1)
          { stats with total_requests := stats.total_requests + 1 }
          (sleeps ++ (if attempt < ra - 1
            then [Sleep.backoff (rd * 2 ^ attempt)] else [])) (by omega)
        rw [List.length_append] at this
        omega
      · dsimp only
        have := ih (attempt + 1)
          { stats with total_requests := stats.total_requests + 1 }
          (sleeps ++ (if attempt < ra - 1
            then [Sleep.backoff (rd * 2 ^ attempt)] else [])) (by omega)
        rw [List.length_append] at this
        omega
      · dsimp only
        omega
    · rw [dif_neg ha]
      simp only
      omega

theorem acquire_pos_tokens (rate burst : ℚ) (times : List ℚ) (s : RLState)
    (h : 0 < s.tokens) :
    acquire rate burst times s = some (⟨s.tokens - 1, s.last_update⟩, []) := by
  rw [acquire.eq_def, if_neg (not_le.mpr h)]

theorem acquire_range (rate burst : ℚ) (hrate : 0 < rate) :
    ∀ (times : List ℚ) (s : RLState), s.tokens ≤ burst →
      ∀ s2 sleeps, acquire rate burst times s = some (s2, sleeps) →
        -1 < s2.tokens ∧ s2.tokens ≤ burst ∧ ∀ d ∈ sleeps, 0 < d := by
  intro times
  induction times with
  | nil =>
    intro s hsb s2 sleeps heq
    rw [acquire.eq_def] at heq
    by_cases ht : s.tokens ≤ 0
    · rw [if_pos ht] at heq
      exact Option.noConfusion heq
    · rw [if_neg ht] at heq
      injection heq with h
      rw [Prod.mk.injEq] at h
      obtain ⟨hs, hl⟩ := h
      rw [← hs, ← hl]
      refine ⟨by simp only; linarith [not_le.mp ht], by simp only; linarith, ?_⟩
      intro d hd
      exact absurd hd (List.not_mem_nil d)
  | cons now rest ih =>
    intro s hsb s2 sleeps heq
    rw [acquire.eq_def] at heq
    by_cases ht : s.tokens ≤ 0
    · rw [if_pos ht] at heq
      dsimp only at heq
      rcases hrec : acquire rate burst rest
          ⟨min (s.tokens + (now - s.last_update) * rate) burst, now⟩
        with _ | ⟨s3, sl3⟩
      · rw [hrec] at heq
        exact Option.noConfusion heq
      · rw [hrec] at heq
        dsimp only at heq
        injection heq with h
        rw [Prod.mk.injEq] at h
        obtain ⟨hs, hl⟩ := h
        obtain ⟨ih1, ih2, ih3⟩ := ih
          ⟨min (s.tokens + (now - s.last_update) * rate) burst, now⟩
          (min_le_right _ _) s3 sl3 hrec
        rw [← hs, ← hl]
        refine ⟨ih1, ih2, ?_⟩
        intro d hd
        rw [List.mem_append] at hd
        rcases hd with hd | hd
        · by_cases hm : min (s.tokens + (now - s.last_update) * rate) burst ≤ 0
          · rw [if_pos hm] at hd
            rw [List.mem_singleton] at hd
            rw [hd]
            apply div_pos _ hrate
            linarith
          · rw [if_neg hm] at hd
            exact absurd hd (List.not_mem_nil d)
        · exact ih3 d hd
    · rw [if_neg ht] at heq
      injection heq with h
      rw [Prod.mk.injEq] at h
      obtain ⟨hs, hl⟩ := h
      rw [← hs, ← hl]
      refine ⟨by simp only; linarith [not_le.mp ht], by simp only; linarith, ?_⟩
      intro d hd
      exact absurd hd (List.not_mem_nil d)

/-! ## The claims -/

/-! ## Single-step evaluation lemmas for the sift loops -/

theorem siftdownGo_stop (h : List Entry) (s pos : Nat) (x : Entry)
    (hc : entryLt x (h.getD ((pos - 1) / 2) dE) = false) :
    siftdownGo h s pos x = h.set pos x := by
  rw [siftdownGo]
  by_cases hlt : s < pos
  · rw [dif_pos hlt, if_neg (by rw [hc]; exact Bool.false_ne_true)]
  · rw [dif_neg hlt]

theorem siftupGo_leaf (h : List Entry) (pos : Nat) (x : Entry)
    (hc : ¬ 2 * pos + 1 < h.length) :
    siftupGo h pos x = (h.set pos x, pos) := by
  rw [siftupGo, dif_neg hc]

theorem siftupGo_right (h : List Entry) (pos : Nat) (x : Entry)
    (h1 : 2 * pos + 1 < h.length)
    (h2 : 2 * pos + 2 < h.length ∧
      entryLt (h.getD (2 * pos + 1) dE) (h.getD (2 * pos + 2) dE) = false) :
    siftupGo h pos x
      = siftupGo (h.set pos (h.getD (2 * pos + 2) dE)) (2 * pos + 2) x := by
  conv_lhs => rw [siftupGo]
  rw [dif_pos h1, dif_pos h2]

theorem siftupGo_left (h : List Entry) (pos : Nat) (x : Entry)
    (h1 : 2 * pos + 1 < h.length)
    (h2 : ¬(2 * pos + 2 < h.length ∧
      entryLt (h.getD (2 * pos + 1) dE) (h.getD (2 * pos + 2) dE) = false)) :
    siftupGo h pos x
      = siftupGo (h.set pos (h.getD (2 * pos + 1) dE)) (2 * pos + 1) x := by
  conv_lhs => rw [siftupGo]
  rw [dif_pos h1, dif_neg h2]

theorem set_append_length (h : List Entry) (e x : Entry) :
    (h ++ [e]).set h.length x = h ++ [x] := by
  induction h with
  | nil => rfl
  | cons a t ih =>
    simp only [List.cons_append, List.length_cons, List.set_cons_succ, ih]

theorem heappush_nil (e : Entry) : heappush [] e = [e] := by
  unfold heappush siftdown
  rw [siftdownGo_stop _ _ _ _ (by show entryLt e e = false; exact entryLt_irrefl e)]
  rfl

theorem heappush_append (h : List Entry) (e : Entry)
    (hc : entryLt e (h.getD ((h.length - 1) / 2) dE) = false) :
    heappush h e = h ++ [e] := by
  unfold heappush siftdown
  rw [getD_append_last]
  rw [siftdownGo_stop _ _ _ _ ?hc2]
  · exact set_append_length h e e
  case hc2 =>
    rcases h with _ | ⟨a, t⟩
    · show entryLt e e = false
      exact entryLt_irrefl e
    · have hidx : ((a :: t).length - 1) / 2 < (a :: t).length := by
        simp only [List.length_cons]
        omega
      rw [show ((a :: t) ++ [e]).getD (((a :: t).length - 1) / 2) dE
          = (a :: t).getD (((a :: t).length - 1) / 2) dE from ?_]
      · exact hc
      · rw [List.getD_eq_getElem?_getD, List.getD_eq_getElem?_getD,
          List.getElem?_append_left hidx]

theorem qstep_heapInv (maxR : Nat) (S : QState) (e : QEv)
    (h : HeapInv S.heap) : HeapInv (qstep maxR S e).heap := by
  cases e with
  | add u p m =>
    simp only [qstep, addUrlStep]
    by_cases hseen : normalize_url u ∈ S.seen
    · rw [if_pos hseen]
      exact h
    · rw [if_neg hseen]
      exact heappush_inv h
  | deq =>
    simp only [qstep, deqStep]
    rcases hp : heappop S.heap with _ | ⟨e0, rest⟩
    · exact h
    · simp only [hp]
      have hne : S.heap ≠ [] := by
        intro hnil
        rw [heappop_eq_none_iff.mpr hnil] at hp
        exact Option.noConfusion hp
      obtain ⟨rest2, hsome, _, _, hinv⟩ := heappop_some hne
      rw [hp] at hsome
      injection hsome with hpair
      rw [Prod.mk.injEq] at hpair
      obtain ⟨-, h2⟩ := hpair
      show HeapInv rest
      rw [h2]
      exact hinv h
  | succ i =>
    simp only [qstep, succStep]
    rcases hget : S.active.get? i with _ | ⟨it, ph⟩
    · simp only [hget]
      exact h
    · cases ph <;> simp only [hget] <;> exact h
  | fail i err =>
    simp only [qstep, failStep]
    rcases hget : S.active.get? i with _ | ⟨it, ph⟩
    · simp only [hget]
      exact h
    · cases ph
      case fetched =>
        simp only [hget]
        by_cases hr : it.retry_count < maxR
        · rw [if_pos hr]
          exact heappush_inv h
        · rw [if_neg hr]
          exact h
      all_goals simp only [hget]
      all_goals exact h
  | fin i =>
    simp only [qstep, finStep]
    rcases hget : S.active.get? i with _ | ⟨it, ph⟩
    · simp only [hget]
      exact h
    · simp only [hget]
      by_cases hf : ph = Phase.fetched
      · rw [if_pos hf]
        exact h
      · rw [if_neg hf]
        exact h

theorem qrun_heapInv (maxR : Nat) (evs : List QEv) :
    HeapInv (qrun maxR evs).heap := by
  unfold qrun
  suffices hgen : ∀ (l : List QEv) (S : QState), HeapInv S.heap →
      HeapInv (l.foldl (qstep maxR) S).heap from
    hgen evs initQ heapInv_nil
  intro l
  induction l with
  | nil =>
    intro S h
    exact h
  | cons e t ih =>
    intro S h
    exact ih _ (qstep_heapInv maxR S e h)

theorem fetchLoop_429_step (ra : Nat) (rd : ℚ) (env : Nat → Outcome)
    (attempt : Nat) (stats : HStats) (sleeps : List Sleep)
    (w bl : Nat) (hlt : attempt < ra)
    (henv : env attempt = Outcome.resp 429 (some w) bl) :
    fetchLoop ra rd env attempt stats sleeps
      = fetchLoop ra rd env (attempt + 1)
          { stats with
              total_requests := stats.total_requests + 1,
              successful_requests := stats.successful_requests + 1,
              total_bytes := stats.total_bytes + bl }
          (sleeps ++ [Sleep.retryAfter w]) := by
  rw [fetchLoop, dif_pos hlt, henv]
  dsimp only
  rw [if_neg (by omega), if_pos rfl]
  rfl

/-- C1, counterexample: four items of equal priority (`NORMAL`, key 2)
enqueued with `created_at` 0,1,2,3 under urls a,b,c,d land in the heap
in insertion order, but the four successive `heappop`s of the
underlying `asyncio.PriorityQueue` heap return them as a,c,b,d — not
in insertion order.  `QueueItem.__lt__` compares only
`priority.value`, so `created_at` never breaks ties and heapq sift
order decides. -/
theorem c1_counterexample :
    pushAll []
      [(2, ⟨"a", Priority.normal, [], 0, 0⟩),
       (2, ⟨"b", Priority.normal, [], 0, 1⟩),
       (2, ⟨"c", Priority.normal, [], 0, 2⟩),
       (2, ⟨"d", Priority.normal, [], 0, 3⟩)]
      = [(2, ⟨"a", Priority.normal, [], 0, 0⟩),
         (2, ⟨"b", Priority.normal, [], 0, 1⟩),
         (2, ⟨"c", Priority.normal, [], 0, 2⟩),
         (2, ⟨"d", Priority.normal, [], 0, 3⟩)] ∧
    heappop [(2, ⟨"a", Priority.normal, [], 0, 0⟩),
       (2, ⟨"b", Priority.normal, [], 0, 1⟩),
       (2, ⟨"c", Priority.normal, [], 0, 2⟩),
       (2, ⟨"d", Priority.normal, [], 0, 3⟩)]
      = some ((2, ⟨"a", Priority.normal, [], 0, 0⟩),
        [(2, ⟨"c", Priority.normal, [], 0, 2⟩),
         (2, ⟨"b", Priority.normal, [], 0, 1⟩),
         (2, ⟨"d", Priority.normal, [], 0, 3⟩)]) ∧
    heappop [(2, ⟨"c", Priority.normal, [], 0, 2⟩),
       (2, ⟨"b", Priority.normal, [], 0, 1⟩),
       (2, ⟨"d", Priority.normal, [], 0, 3⟩)]
      = some ((2, ⟨"c", Priority.normal, [], 0, 2⟩),
        [(2, ⟨"b", Priority.normal, [], 0, 1⟩),
         (2, ⟨"d", Priority.normal, [], 0, 3⟩)]) ∧
    heappop [(2, ⟨"b", Priority.normal, [], 0, 1⟩),
       (2, ⟨"d", Priority.normal, [], 0, 3⟩)]
      = some ((2, ⟨"b", Priority.normal, [], 0, 1⟩),
        [(2, ⟨"d", Priority.normal, [], 0, 3⟩)]) ∧
    heappop [(2, ⟨"d", Priority.normal, [], 0, 3⟩)]
      = some ((2, ⟨"d", Priority.normal, [], 0, 3⟩), []) ∧
    ["a", "c", "b", "d"] ≠ ["a", "b", "c", "d"] := by
  refine ⟨?_, ?_, ?_, ?_, by decide, by decide⟩
  · have hp1 : heappush [] ((2 : Nat), (⟨"a", Priority.normal, [], 0, 0⟩ : QueueItem))
        = [(2, ⟨"a", Priority.normal, [], 0, 0⟩)] := heappush_nil _
    have hp2 : heappush [(2, ⟨"a", Priority.normal, [], 0, 0⟩)]
        ((2 : Nat), (⟨"b", Priority.normal, [], 0, 1⟩ : QueueItem))
        = [(2, ⟨"a", Priority.normal, [], 0, 0⟩),
           (2, ⟨"b", Priority.normal, [], 0, 1⟩)] :=
      heappush_append _ _ (by decide)
    have hp3 : heappush [(2, ⟨"a", Priority.normal, [], 0, 0⟩),
           (2, ⟨"b", Priority.normal, [], 0, 1⟩)]
        ((2 : Nat), (⟨"c", Priority.normal, [], 0, 2⟩ : QueueItem))
        = [(2, ⟨"a", Priority.normal, [], 0, 0⟩),
           (2, ⟨"b", Priority.normal, [], 0, 1⟩),
           (2, ⟨"c", Priority.normal, [], 0, 2⟩)] :=
      heappush_append _ _ (by decide)
    have hp4 : heappush [(2, ⟨"a", Priority.normal, [], 0, 0⟩),
           (2, ⟨"b", Priority.normal, [], 0, 1⟩),
           (2, ⟨"c", Priority.normal, [], 0, 2⟩)]
        ((2 : Nat), (⟨"d", Priority.normal, [], 0, 3⟩ : QueueItem))
        = [(2, ⟨"a", Priority.normal, [], 0, 0⟩),
           (2, ⟨"b", Priority.normal, [], 0, 1⟩),
           (2, ⟨"c", Priority.normal, [], 0, 2⟩),
           (2, ⟨"d", Priority.normal, [], 0, 3⟩)] :=
      heappush_append _ _ (by decide)
    show heappush (heappush (heappush (heappush [] _) _) _) _ = _
    rw [hp1, hp2, hp3, hp4]
  · unfold heappop
    rw [if_neg (by decide), if_neg (by decide)]
    unfold siftup siftdown
    rw [siftupGo_right _ _ _ (by decide) (by decide)]
    rw [siftupGo_leaf _ _ _ (by decide)]
    rw [siftdownGo_stop _ _ _ _ (by decide)]
    decide
  · unfold heappop
    rw [if_neg (by decide), if_neg (by decide)]
    unfold siftup siftdown
    rw [siftupGo_left _ _ _ (by decide) (by decide)]
    rw [siftupGo_leaf _ _ _ (by decide)]
    rw [siftdownGo_stop _ _ _ _ (by decide)]
    decide
  · unfold heappop
    rw [if_neg (by decide), if_neg (by decide)]
    unfold siftup siftdown
    rw [siftupGo_leaf _ _ _ (by decide)]
    rw [siftdownGo_stop _ _ _ _ (by decide)]
    decide

/-- C2, counterexample: after `add_url`, a pop, and a successful
processor return, the URL is in `processed` while still in
`processing` — `worker` runs `processed.add(url)` (and the awaited
`on_success`) before the `finally` block discards the URL from
`processing`, so the four sets of the claim are not pairwise
disjoint. -/
theorem c2_counterexample :
    "http://a/x" ∈ (qrun 3 [QEv.add "http://a/x" Priority.normal [],
      QEv.deq, QEv.succ 0]).processing ∧
    "http://a/x" ∈ (qrun 3 [QEv.add "http://a/x" Priority.normal [],
      QEv.deq, QEv.succ 0]).processed := by
  have e1 : qstep 3 initQ (QEv.add "http://a/x" Priority.normal [])
      = ⟨[(2, ⟨"http://a/x", Priority.normal, [], 0, 0⟩)], ["http://a/x"],
         [], [], [], [], [], 1⟩ := by
    simp only [qstep, addUrlStep, initQ]
    rw [if_neg (by decide), heappush_nil]
    decide
  have e2 : qstep 3 ⟨[(2, ⟨"http://a/x", Priority.normal, [], 0, 0⟩)],
        ["http://a/x"], [], [], [], [], [], 1⟩ QEv.deq
      = ⟨[], ["http://a/x"], ["http://a/x"], [], [],
         [(⟨"http://a/x", Priority.normal, [], 0, 0⟩, Phase.fetched)],
         ["http://a/x"], 1⟩ := by decide
  have e3 : qstep 3 ⟨[], ["http://a/x"], ["http://a/x"], [], [],
        [(⟨"http://a/x", Priority.normal, [], 0, 0⟩, Phase.fetched)],
        ["http://a/x"], 1⟩ (QEv.succ 0)
      = ⟨[], ["http://a/x"], ["http://a/x"], ["http://a/x"], [],
         [(⟨"http://a/x", Priority.normal, [], 0, 0⟩, Phase.doneSuccess)],
         ["http://a/x"], 1⟩ := by decide
  have hq : qrun 3 [QEv.add "http://a/x" Priority.normal [],
      QEv.deq, QEv.succ 0]
      = ⟨[], ["http://a/x"], ["http://a/x"], ["http://a/x"], [],
         [(⟨"http://a/x", Priority.normal, [], 0, 0⟩, Phase.doneSuccess)],
         ["http://a/x"], 1⟩ := by
    show List.foldl (qstep 3) initQ _ = _
    simp only [List.foldl]
    rw [e1, e2, e3]
  rw [hq]
  exact ⟨by decide, by decide⟩

/-- C9, counterexample: from a full one-token bucket (`rate=2`,
`burst=1`), one `acquire` leaves 0 tokens; a second `acquire` at time
1/8 refills to 1/4 > 0, exits the `while tokens <= 0` loop without any
sleep, and decrements to -3/4: the token count leaves `[0, burst]` and
the caller proceeds holding only a quarter token. -/
theorem c9_counterexample :
    acquire 2 1 [] (rlInit 1 0) = some (⟨0, 0⟩, []) ∧
    acquire 2 1 [1/8] ⟨0, 0⟩ = some (⟨-3/4, 1/8⟩, []) ∧
    ¬((0 : ℚ) ≤ -3/4) := by
  refine ⟨?_, ?_, by norm_num⟩
  · rw [acquire.eq_def, if_neg (by norm_num [rlInit])]
    norm_num [rlInit]
  · rw [acquire.eq_def, if_pos (by norm_num)]
    dsimp only
    rw [acquire.eq_def, if_neg (by rw [min_le_iff]; norm_num)]
    dsimp only
    rw [if_neg (by rw [min_le_iff]; norm_num)]
    rw [show ((0 : ℚ) + (1/8 - 0) * 2) = 1/4 by norm_num]
    rw [min_eq_left (by norm_num : (1/4 : ℚ) ≤ 1)]
    norm_num

/-- C8, code bug witness: one `fetch` against a 404 with a 9-byte body
yields `total_requests = 1` but `successful_requests = 1` AND
`failed_requests = 1`: `successful_requests` is incremented after
`response.read()` regardless of status, so
`successful + failed ≤ total` fails after a single request. -/
theorem c8_stats_invariant_violated :
    fetch true 3 1 (fun _ => Outcome.resp 404 none 9) zeroStats
      = (FetchResult.nil, ⟨1, 1, 1, 9⟩, []) ∧
    ¬((1 : Nat) + 1 ≤ 1) := by
  constructor
  · show fetchLoop 3 1 (fun _ => Outcome.resp 404 none 9) 0 zeroStats [] = _
    rw [fetchLoop, dif_pos (by omega)]
    dsimp only
    rw [if_neg (by omega), if_neg (by omega), if_neg (by omega)]
    rfl
  · omega

/-- C5, counterexample: with `retry_attempts = 3` and a server that
answers 429 (`Retry-After: 1`) three times and then 200, `fetch`
returns `None` after three Retry-After sleeps and three requests — the
200 is never attempted, because `attempt += 1` on the 429 path counts
each 429 against the retry budget. -/
theorem c5_counterexample :
    (fetch true 3 1 (fun k => if k < 3 then Outcome.resp 429 (some 1) 0
      else Outcome.resp 200 none 5) zeroStats).1 = FetchResult.nil ∧
    (fetch true 3 1 (fun k => if k < 3 then Outcome.resp 429 (some 1) 0
      else Outcome.resp 200 none 5) zeroStats).2.2
      = [Sleep.retryAfter 1, Sleep.retryAfter 1, Sleep.retryAfter 1] ∧
    (fetch true 3 1 (fun k => if k < 3 then Outcome.resp 429 (some 1) 0
      else Outcome.resp 200 none 5) zeroStats).2.1.total_requests = 3 := by
  have hf : fetch true 3 1 (fun k => if k < 3 then Outcome.resp 429 (some 1) 0
      else Outcome.resp 200 none 5) zeroStats
      = fetchLoop 3 1 (fun k => if k < 3 then Outcome.resp 429 (some 1) 0
      else Outcome.resp 200 none 5) 0 zeroStats [] := rfl
  rw [hf]
  rw [fetchLoop_429_step 3 1 (fun k => if k < 3 then Outcome.resp 429 (some 1) 0
      else Outcome.resp 200 none 5) 0 zeroStats [] 1 0 (by omega) rfl]
  rw [fetchLoop_429_step 3 1 (fun k => if k < 3 then Outcome.resp 429 (some 1) 0
      else Outcome.resp 200 none 5) 1 _ _ 1 0 (by omega) rfl]
  rw [fetchLoop_429_step 3 1 (fun k => if k < 3 then Outcome.resp 429 (some 1) 0
      else Outcome.resp 200 none 5) 2 _ _ 1 0 (by omega) rfl]
  rw [fetchLoop, dif_neg (by omega)]
  refine ⟨rfl, by decide, rfl⟩

/-- C1 (amended): every pop sequence drained from a reachable queue
heap is sorted by the pushed key `priority.value` (non-decreasing), so
an item with a numerically lower priority is popped before any higher
one; ties are NOT resolved by insertion order (see the
counterexample). -/
theorem c1_pop_order_by_priority (maxR : Nat) (evs : List QEv) :
    (popAll (qrun maxR evs).heap).Pairwise (fun a b => a.1 ≤ b.1) := by
  have hs := popAll_sorted (qrun_heapInv maxR evs)
  exact hs.imp (fun hab => by rw [entryLt_false_iff] at hab; omega)

/-- C2 (amended): in every reachable state of the worker machine, each
URL is in at most one of {queued, done (`processed`), failed}; the
`processing` set is excluded from the claim since it transiently
overlaps `processed` and `failed` between a terminal transition and
the `finally` discard. -/
theorem c2_terminal_disjointness (maxR : Nat) (evs : List QEv) (u : String) :
    ¬(u ∈ queuedUrls (qrun maxR evs) ∧ u ∈ (qrun maxR evs).processed) ∧
    ¬(u ∈ queuedUrls (qrun maxR evs) ∧
        u ∈ (qrun maxR evs).failed.map Prod.fst) ∧
    ¬(u ∈ (qrun maxR evs).processed ∧
        u ∈ (qrun maxR evs).failed.map Prod.fst) :=
  disjoint_of_inv (qrun_inv maxR evs) u

/-- C4: on a started client, (i) at most `retry_attempts` requests are
issued; (ii) a 4xx response other than 429 (after any run of
continuing outcomes) makes `fetch` return `None` immediately — exactly
`j+1` requests and one `failed_requests` bump; (iii) when every
attempt fails retryably (timeout, transport error, 5xx), `fetch`
returns `None`, increments `failed_requests` once, and sleeps
`retry_delay * 2^attempt` between consecutive attempts. -/
theorem c4_fetch_retry_policy (ra : Nat) (rd : ℚ) (env : Nat → Outcome)
    (stats : HStats) :
    ((fetch true ra rd env stats).2.1.total_requests
        ≤ stats.total_requests + ra) ∧
    (∀ j st rA bl, (∀ k, k < j → continuing (env k)) →
      env j = Outcome.resp st rA bl → 400 ≤ st → st ≠ 429 → st < 500 →
      j < ra →
      (fetch true ra rd env stats).1 = FetchResult.nil ∧
      (fetch true ra rd env stats).2.1.total_requests
        = stats.total_requests + (j + 1) ∧
      (fetch true ra rd env stats).2.1.failed_requests
        = stats.failed_requests + 1) ∧
    ((∀ k, retryableFail (env k)) →
      (fetch true ra rd env stats).1 = FetchResult.nil ∧
      (fetch true ra rd env stats).2.1.failed_requests
        = stats.failed_requests + 1 ∧
      (fetch true ra rd env stats).2.2
        = (List.range (ra - 1)).map
            (fun k => Sleep.backoff (rd * 2 ^ k))) := by
  have hfetch : fetch true ra rd env stats = fetchLoop ra rd env 0 stats []
    := rfl
  refine ⟨?_, ?_, ?_⟩
  · rw [hfetch]
    have := fetchLoop_total_le ra rd env ra 0 stats [] (by omega)
    omega
  · intro j st rA bl hcont henv h4 h9 h5 hra
    rw [hfetch]
    have hcont0 : ∀ k, k < j → continuing (env (0 + k)) := by
      intro k hk
      rw [Nat.zero_add]
      exact hcont k hk
    have henv0 : env (0 + j) = Outcome.resp st rA bl := by
      rw [Nat.zero_add]
      exact henv
    exact fetchLoop_4xx ra rd env st rA bl j 0 stats [] hcont0 henv0
      h4 h9 h5 (by omega)
  · intro hall
    rw [hfetch]
    obtain ⟨h1, h2, h3, h4⟩ :=
      fetchLoop_allfail ra rd env hall ra 0 stats [] (by omega)
    refine ⟨h1, h3, ?_⟩
    rw [h4, List.nil_append, expBackoffs_eq rd ra ra 0 (by omega),
      Nat.sub_zero, ← List.range_eq_range']

/-- C5 (amended): a 429 response at any attempt makes the loop sleep
the `Retry-After` value and move to the next attempt — consuming one
unit of the retry budget — and the total number of sleeps of any
`fetch` call is bounded by `retry_attempts`, so no infinite 429
loop. -/
theorem c5_429_sleep_retry_bounded (ra : Nat) (rd : ℚ) (env : Nat → Outcome)
    (stats : HStats) :
    (∀ attempt w bl sleeps, attempt < ra →
      env attempt = Outcome.resp 429 (some w) bl →
      fetchLoop ra rd env attempt stats sleeps
        = fetchLoop ra rd env (attempt + 1)
            { stats with
                total_requests := stats.total_requests + 1,
                successful_requests := stats.successful_requests + 1,
                total_bytes := stats.total_bytes + bl }
            (sleeps ++ [Sleep.retryAfter w])) ∧
    (fetch true ra rd env stats).2.2.length ≤ ra := by
  constructor
  · intro attempt w bl sleeps hlt henv
    exact fetchLoop_429_step ra rd env attempt stats sleeps w bl hlt henv
  · have h := fetchLoop_sleeps_le ra rd env ra 0 stats [] (by omega)
    have hfetch : fetch true ra rd env stats = fetchLoop ra rd env 0 stats []
      := rfl
    rw [hfetch]
    simpa using h

/-- C6: when the processor raises on an in-flight item, if
`retry_count < max_retries` the item is re-pushed at LOW priority with
`retry_count + 1` and its `url`, `metadata` and `created_at` fields
unchanged (the record update touches only `retry_count` and
`priority`); otherwise the URL goes to the failed map (then
`on_failure` runs).  Consequently no URL is dequeued into `processing`
more than `max_retries + 1` times in any run. -/
theorem c6_failure_path (maxR : Nat) (S : QState) (i : Nat) (err : String)
    (evs : List QEv) (u : String) :
    (∀ it, S.active.get? i = some (it, Phase.fetched) →
      (it.retry_count < maxR →
        failStep S i err maxR = { S with
          heap := heappush S.heap (Priority.low.value,
            { it with
                retry_count := it.retry_count + 1,
                priority := Priority.low }),
          active := S.active.set i
            ({ it with
                retry_count := it.retry_count + 1,
                priority := Priority.low }, Phase.doneRetry) }) ∧
      (maxR ≤ it.retry_count →
        failStep S i err maxR = { S with
          failed := failedInsert it.url err S.failed,
          active := S.active.set i (it, Phase.doneFail) })) ∧
    (qrun maxR evs).dequeued.count u ≤ maxR + 1 := by
  constructor
  · intro it hget
    constructor
    · intro hlt
      simp only [failStep, hget]
      rw [if_pos hlt]
    · intro hge
      simp only [failStep, hget]
      rw [if_neg (by omega)]
  · exact (qrun_inv maxR evs).cnt_le u

/-- C7: `save_state` followed by `load_state` into a fresh queue
reproduces the seen set, the processed set and the failed map exactly,
and re-enqueues the pending items preserving the multiset of
`(url, priority, metadata, retry_count)` (live stats and `created_at`
are not preserved). -/
theorem c7_checkpoint_roundtrip (S : QState) (now : Nat) :
    ∃ L, load_state initQ (save_state S).1 now = some L ∧
      L.seen = S.seen ∧ L.processed = S.processed ∧
      L.failed = S.failed ∧
      (↑(L.heap.map entryProj) :
        Multiset (String × Priority × List (String × String) × Nat))
        = ↑(S.heap.map entryProj) :=
  save_load_roundtrip S now

/-- C9 (amended): `acquire` returns immediately with one token
consumed and no sleep whenever `tokens > 0` (a full token is not
required), and any successful `acquire` from a state with
`tokens ≤ burst` leaves the count in the interval `(-1, burst]` —
which includes negative values — with every sleep duration positive
when the rate is. -/
theorem c9_rate_limiter_behavior (rate burst : ℚ) (times : List ℚ) (s : RLState) :
    (0 < s.tokens →
      acquire rate burst times s
        = some (⟨s.tokens - 1, s.last_update⟩, [])) ∧
    (0 < rate → s.tokens ≤ burst → ∀ s2 sleeps,
      acquire rate burst times s = some (s2, sleeps) →
      -1 < s2.tokens ∧ s2.tokens ≤ burst ∧ ∀ d ∈ sleeps, 0 < d) := by
  constructor
  · intro h
    exact acquire_pos_tokens rate burst times s h
  · intro hrate hsb s2 sleeps heq
    exact acquire_range rate burst hrate times s hsb s2 sleeps heq

/-- C10: calling `fetch` with no open session (before `start()` or
after `close()`) raises `RuntimeError` before any request: the result
is the raised marker, the statistics are returned unchanged, and no
sleep happens. -/
theorem c10_fetch_without_session (ra : Nat) (rd : ℚ) (env : Nat → Outcome)
    (stats : HStats) :
    fetch false ra rd env stats = (FetchResult.notStarted, stats, []) :=
  rfl

/-- C3 (amended): on a well-formed URL of shape scheme, `://`, host,
path, optional query, optional fragment, `_normalize_url` drops the
fragment and rebuilds scheme `://` host path `?query`, then strips ALL
trailing slashes from the rebuilt string — hence a query ending in `/`
is truncated and the bare root path is trimmed (see the
counterexample). -/
theorem c3_normalize_shape
    (S H P Q F : List Char)
    (hS : S ≠ [])
    (hS0 : (S.headD ' ').isAlpha = true ∧
      isC0OrSpace (S.headD ' ') = false)
    (hSc : ∀ c ∈ S, isSchemeChar c = true ∧ isUnsafeChar c = false ∧
      c ≠ ':' ∧ c.toLower = c)
    (hH : ∀ c ∈ H, isNetlocDelim c = false ∧ isUnsafeChar c = false)
    (hP : (P ≠ [] → P.headD ' ' = '/') ∧
      ∀ c ∈ P, c ≠ '?' ∧ c ≠ '#' ∧ c ≠ ';' ∧
        isUnsafeChar c = false)
    (hQ : ∀ c ∈ Q, c ≠ '#' ∧ isUnsafeChar c = false)
    (hF : ∀ c ∈ F, isUnsafeChar c = false) :
    normalize_url (String.mk (S ++ [':', '/', '/'] ++ H ++ P
        ++ (if Q = [] then [] else '?' :: Q)
        ++ (if F = [] then [] else '#' :: F)))
      = String.mk (rstripSlash (S ++ [':', '/', '/'] ++ H ++ P
        ++ (if Q = [] then [] else '?' :: Q))) :=
  normalize_url_spec S H P Q F hS hS0 hSc hH hP hQ hF

/-- C3 witness: the amended normalization shape evaluated on the
concrete URL `http://a/p?q=x#f`. -/
theorem c3_normalize_shape_witness :
    normalize_url (String.mk (['h', 't', 't', 'p']
        ++ [':', '/', '/'] ++ ['a']
        ++ ['/', 'p']
        ++ (if (['q', '=', 'x'] : List Char) = []
            then [] else '?' :: ['q', '=', 'x'])
        ++ (if (['f'] : List Char) = []
            then [] else '#' :: ['f'])))
      = String.mk (rstripSlash (['h', 't', 't', 'p']
        ++ [':', '/', '/'] ++ ['a']
        ++ ['/', 'p']
        ++ (if (['q', '=', 'x'] : List Char) = []
            then [] else '?' :: ['q', '=', 'x']))) :=
  c3_normalize_shape ['h', 't', 't', 'p'] ['a']
    ['/', 'p'] ['q', '=', 'x'] ['f']
    (by decide) (by decide) (by decide) (by decide) (by decide) (by decide)
    (by decide)

/-- C3, counterexample: `_normalize_url` does not preserve the query
verbatim — `http://a/p?q=/` normalizes to `http://a/p?q=` — and does
not keep the slash of the bare root path — `http://a/` normalizes to
`http://a`. -/
theorem c3_counterexample :
    normalize_url "http://a/p?q=/" = "http://a/p?q=" ∧
    normalize_url "http://a/" = "http://a" ∧
    "http://a/p?q=" ≠ "http://a/p?q=/" ∧ "http://a" ≠ "http://a/" := by
  exact ⟨rfl, rfl, by decide, by decide⟩

end Scraper
